import Mathlib

/-!
Verification of the knowledge-graph construction core and the
force-directed graph view of a research-paper management application.

The builder (`graphService.buildGlobalGraph`) turns a list of research
documents into a typed node/edge graph with merge-on-re-add semantics for
nodes and undirected dedup for edges.  The view component supplies node
sizing (`getRadius`), click-to-highlight (`handleHighlight`) and drag
handlers.  All definitions below are shallow embeddings of that source
code; the theorems at the end of the file settle the specification's
claims about it.
-/

namespace IRDA

/-- Metadata payload stored on PAPER nodes; the source stores
`{ title, date, summary, id }`. -/
structure PaperMeta where
  title : String
  date : String
  summary : String
  id : String
deriving DecidableEq, Repr

/-- A graph node as produced by the builder: `{ id, label, group, val, metadata }`.
`metadata` is `{}` (here `none`) except on PAPER nodes. -/
structure GraphNode where
  id : String
  label : String
  group : String
  val : Nat
  metadata : Option PaperMeta
deriving DecidableEq, Repr

/-- A graph edge `{ source, target, relation }` (undirected in meaning). -/
structure GraphEdge where
  source : String
  target : String
  relation : String
deriving DecidableEq, Repr

/-- The builder's result: `{ nodes, edges }`. -/
structure KnowledgeGraphData where
  nodes : List GraphNode
  edges : List GraphEdge
deriving DecidableEq, Repr

/-- The builder's in-progress state: the insertion-ordered node map
(modelled as a list with unique ids) and the edge array. -/
structure BuildState where
  nodes : List GraphNode
  edges : List GraphEdge
deriving DecidableEq, Repr

/-- The document record fields consumed by the builder. -/
structure ResearchDocument where
  id : String
  title : String
  publicationDate : String
  summary : String
  authors : List String
  institute : Option String
  keyConcepts : List String
  methods : List String
deriving DecidableEq, Repr

/-- JS `s.trim()`: remove whitespace from both ends of the string. -/
def jsTrim (s : String) : String :=
  ⟨((s.data.dropWhile Char.isWhitespace).reverse.dropWhile Char.isWhitespace).reverse⟩

/-- JS `s.toLowerCase()`: lower-case every character. -/
def jsToLower (s : String) : String :=
  ⟨s.data.map Char.toLower⟩

/-- JS `s.charAt(0).toUpperCase() + s.slice(1)`: upper-case the first
character only, keep the rest unchanged ("" stays ""). -/
def capitalizeFirst (s : String) : String :=
  match s.data with
  | [] => ""
  | c :: rest => ⟨c.toUpper :: rest⟩

/-- `addNode` acting on the node map alone: if a node with the id exists,
increment its weight by 1 (never touching label/group/metadata); otherwise
insert the fresh node at the end. -/
def addNodeL (ns : List GraphNode) (c : GraphNode) : List GraphNode :=
  if ns.any (fun n => n.id == c.id) then
    ns.map (fun n => if n.id == c.id then { n with val := n.val + 1 } else n)
  else
    ns ++ [c]

/-- The builder's `addNode` helper. -/
def addNode (st : BuildState) (c : GraphNode) : BuildState :=
  { st with nodes := addNodeL st.nodes c }

/-- The per-edge test inside `addEdge`'s duplicate check: same endpoints in
either orientation ("undirected visually") and the same relation. -/
def symMatch (e : GraphEdge) (source target relation : String) : Bool :=
  (e.source == source && e.target == target && e.relation == relation) ||
  (e.source == target && e.target == source && e.relation == relation)

/-- The duplicate check inside `addEdge`: an edge with the same endpoints
in either orientation and the same relation already exists. -/
def edgeExists (es : List GraphEdge) (source target relation : String) : Bool :=
  es.any (fun e => symMatch e source target relation)

/-- Propositional form of the undirected-duplicate relation between edges. -/
def sameUndirected (e1 e2 : GraphEdge) : Prop :=
  ((e1.source = e2.source ∧ e1.target = e2.target) ∨
   (e1.source = e2.target ∧ e1.target = e2.source)) ∧ e1.relation = e2.relation

/-- The edge-array invariant: no self-loops and no undirected duplicates. -/
def goodEdges (es : List GraphEdge) : Prop :=
  (∀ e ∈ es, e.source ≠ e.target) ∧ es.Pairwise (fun a b => ¬ sameUndirected a b)

/-- `addEdge` acting on the edge array alone: drop self-loops, drop
duplicates (in either orientation), otherwise append. -/
def addEdgeL (es : List GraphEdge) (e : GraphEdge) : List GraphEdge :=
  if e.source == e.target then es
  else if edgeExists es e.source e.target e.relation then es
  else es ++ [e]

/-- The builder's `addEdge` helper. -/
def addEdge (st : BuildState) (e : GraphEdge) : BuildState :=
  { st with edges := addEdgeL st.edges e }

/-- The paper node id `paper:<docId>`. -/
def docIdOf (doc : ResearchDocument) : String := "paper:" ++ doc.id

/-- The PAPER node-creation call for a document. -/
def paperCall (doc : ResearchDocument) : GraphNode :=
  ⟨docIdOf doc, doc.title, "PAPER", 10,
    some ⟨doc.title, doc.publicationDate, doc.summary, doc.id⟩⟩

/-- The AUTHOR node-creation call for one author string. -/
def authorCall (author : String) : GraphNode :=
  ⟨"author:" ++ jsTrim author, jsTrim author, "AUTHOR", 5, none⟩

/-- The INSTITUTE node-creation call. -/
def instCall (institute : String) : GraphNode :=
  ⟨"inst:" ++ jsTrim institute, jsTrim institute, "INSTITUTE", 6, none⟩

/-- The CONCEPT node-creation call: id from the lower-cased trimmed text,
label with only the first character upper-cased. -/
def conceptCall (concept : String) : GraphNode :=
  ⟨"concept:" ++ jsTrim (jsToLower concept), capitalizeFirst concept, "CONCEPT", 3, none⟩

/-- The METHOD node-creation call. -/
def methodCall (method : String) : GraphNode :=
  ⟨"method:" ++ jsTrim (jsToLower method), capitalizeFirst method, "METHOD", 3, none⟩

/-- The `written_by` edge `PAPER -> AUTHOR` added per author. -/
def writtenByEdge (doc : ResearchDocument) (author : String) : GraphEdge :=
  ⟨docIdOf doc, "author:" ++ jsTrim author, "written_by"⟩

/-- The `published_at` edge `PAPER -> INSTITUTE`. -/
def publishedAtEdge (doc : ResearchDocument) (institute : String) : GraphEdge :=
  ⟨docIdOf doc, "inst:" ++ jsTrim institute, "published_at"⟩

/-- The `affiliated_with` edge `AUTHOR -> INSTITUTE` added per author
whenever the document has an institute. -/
def affiliatedEdge (author institute : String) : GraphEdge :=
  ⟨"author:" ++ jsTrim author, "inst:" ++ jsTrim institute, "affiliated_with"⟩

/-- The `discusses` edge `PAPER -> CONCEPT`. -/
def discussesEdge (doc : ResearchDocument) (concept : String) : GraphEdge :=
  ⟨docIdOf doc, "concept:" ++ jsTrim (jsToLower concept), "discusses"⟩

/-- The `uses_method` edge `PAPER -> METHOD`. -/
def usesMethodEdge (doc : ResearchDocument) (method : String) : GraphEdge :=
  ⟨docIdOf doc, "method:" ++ jsTrim (jsToLower method), "uses_method"⟩

/-- Processing of a single document inside `buildGlobalGraph`:
paper node, author nodes + `written_by` edges, institute node +
`published_at` + per-author `affiliated_with` edges (skipped when the
institute is absent or the empty string, JS falsiness), the first five
key concepts, and the first three methods. -/
def processDoc (st : BuildState) (doc : ResearchDocument) : BuildState :=
  let st := addNode st (paperCall doc)
  let st := doc.authors.foldl (fun st author =>
    let st := addNode st (authorCall author)
    addEdge st (writtenByEdge doc author)) st
  let st := match doc.institute with
    | none => st
    | some institute =>
      if institute = "" then st
      else
        let st := addNode st (instCall institute)
        let st := addEdge st (publishedAtEdge doc institute)
        doc.authors.foldl (fun st author =>
          addEdge st (affiliatedEdge author institute)) st
  let st := (doc.keyConcepts.take 5).foldl (fun st concept =>
    let st := addNode st (conceptCall concept)
    addEdge st (discussesEdge doc concept)) st
  (doc.methods.take 3).foldl (fun st method =>
    let st := addNode st (methodCall method)
    addEdge st (usesMethodEdge doc method)) st

/-- `graphService.buildGlobalGraph`: fold the documents in input order over
an empty state and return `{ nodes, edges }`. -/
def buildGlobalGraph (documents : List ResearchDocument) : KnowledgeGraphData :=
  let st := documents.foldl processDoc ⟨[], []⟩
  ⟨st.nodes, st.edges⟩

/-! Replay view of the builder: the sequence of `addNode` / `addEdge`
invocations a document (resp. a document list) triggers, in source order.
The two streams are independent — `addNode` never reads the edge array and
`addEdge` never reads the node map — so the builder equals the two replays
(`build_eq` below). -/

/-- The `addNode` calls triggered by one document, in order. -/
def nodeCallsOfDoc (doc : ResearchDocument) : List GraphNode :=
  paperCall doc ::
    (doc.authors.map authorCall ++
      ((match doc.institute with
        | none => []
        | some institute => if institute = "" then [] else [instCall institute]) ++
       ((doc.keyConcepts.take 5).map conceptCall ++
        (doc.methods.take 3).map methodCall)))

/-- All `addNode` calls triggered by a document list. -/
def nodeCalls (documents : List ResearchDocument) : List GraphNode :=
  documents.flatMap nodeCallsOfDoc

/-- The `addEdge` calls triggered by one document, in order. -/
def edgeCallsOfDoc (doc : ResearchDocument) : List GraphEdge :=
  doc.authors.map (writtenByEdge doc) ++
    ((match doc.institute with
      | none => []
      | some institute =>
        if institute = "" then []
        else publishedAtEdge doc institute ::
          doc.authors.map (fun author => affiliatedEdge author institute)) ++
     ((doc.keyConcepts.take 5).map (discussesEdge doc) ++
      (doc.methods.take 3).map (usesMethodEdge doc)))

/-- All `addEdge` calls triggered by a document list. -/
def edgeCalls (documents : List ResearchDocument) : List GraphEdge :=
  documents.flatMap edgeCallsOfDoc

/-- Replay of a stream of `addNode` calls over an empty node map. -/
def nodesOf (calls : List GraphNode) : List GraphNode :=
  calls.foldl addNodeL []

/-- Specification combinator for the node tracked under one fixed id:
`cur` is the current singleton (or empty) filtered view, and each further
call with that id either creates the node or bumps its weight by one. -/
def mergeCalls (cur : List GraphNode) (cs : List GraphNode) : List GraphNode :=
  cs.foldl (fun cur c =>
    match cur with
    | [] => [c]
    | n :: _ => [{ n with val := n.val + 1 }]) cur

/-- Each id occurs on at most one node (the `Map` invariant). -/
def uniqIds (ns : List GraphNode) : Prop :=
  ∀ i : String, (ns.filter (fun n => n.id == i)).length ≤ 1

/-- First character of a string, used to separate the five id namespaces
(`paper:`, `author:`, `inst:`, `concept:`, `method:`). -/
def headChar (s : String) : Option Char :=
  s.data.head?

/-- Every `addNode` call the builder makes has one of five shapes. -/
def callShape (c : GraphNode) : Prop :=
  (∃ doc : ResearchDocument, c = paperCall doc) ∨
  (∃ a : String, c = authorCall a) ∨
  (∃ s : String, c = instCall s) ∨
  (∃ s : String, c = conceptCall s) ∨
  (∃ s : String, c = methodCall s)

/-- Total number of occurrences of a trimmed author name across the
documents' author lists. -/
def authorOccurrences (documents : List ResearchDocument) (name : String) : Nat :=
  (documents.map (fun doc => doc.authors.countP (fun a => jsTrim a == name))).sum

/-- Replay of a stream of `addEdge` calls over an empty edge array. -/
def edgesOf (calls : List GraphEdge) : List GraphEdge :=
  calls.foldl addEdgeL []

/-- Doc1 of the spec's end-to-end scenario:
`{authors:["K. Chen"], institute:"MIT", concepts:["GNN"]}`. -/
def scenarioDoc1 : ResearchDocument :=
  ⟨"1", "Doc1", "2024-01-01", "S1", ["K. Chen"], some "MIT", ["GNN"], []⟩

/-- Doc2 of the spec's end-to-end scenario (same author/institute/concept). -/
def scenarioDoc2 : ResearchDocument :=
  ⟨"2", "Doc2", "2024-01-01", "S2", ["K. Chen"], some "MIT", ["GNN"], []⟩

/-- A two-document input sharing one author name, first spelling. -/
def sharedAuthorDocA : ResearchDocument :=
  ⟨"1", "T1", "2024", "sA", ["K. Chen"], none, [], []⟩

/-- A two-document input sharing one author name, second spelling (needs
trimming). -/
def sharedAuthorDocB : ResearchDocument :=
  ⟨"2", "T2", "2024", "sB", [" K. Chen "], none, [], []⟩

/-- A document with 8 distinct key concepts and 5 distinct methods, for the
truncation claim. -/
def truncDoc : ResearchDocument :=
  ⟨"9", "T9", "2024", "s9", [], none,
    ["c1", "c2", "c3", "c4", "c5", "c6", "c7", "c8"],
    ["m1", "m2", "m3", "m4", "m5"]⟩

/-- A document record as it reaches the builder at run time: the array
fields may be missing (`undefined`/`null`), the institute may be null. -/
structure RawDocument where
  id : String
  title : String
  publicationDate : String
  summary : String
  authors : Option (List String)
  institute : Option String
  keyConcepts : Option (List String)
  methods : Option (List String)
deriving DecidableEq, Repr

/-- Read a raw record as a typed one, defaulting present-but-empty data;
only meaningful when the three arrays are present. -/
def toDocument (doc : RawDocument) : ResearchDocument :=
  ⟨doc.id, doc.title, doc.publicationDate, doc.summary,
    doc.authors.getD [], doc.institute, doc.keyConcepts.getD [], doc.methods.getD []⟩

/-- JS runtime behaviour of the per-document body on a possibly-malformed
record: `doc.authors.forEach`, `doc.keyConcepts.slice` and
`doc.methods.slice` throw a TypeError when the array is missing (in that
source order); the institute is only touched under the falsy guard
`if (doc.institute)`, so a null/absent/empty institute never throws.
State mutated before a throw never escapes the failed call, so the
successful path is the typed per-document step. -/
def processDocRaw (st : BuildState) (doc : RawDocument) : Except String BuildState :=
  match doc.authors with
  | none => .error "TypeError: undefined has no forEach (doc.authors)"
  | some _ =>
    match doc.keyConcepts with
    | none => .error "TypeError: undefined has no slice (doc.keyConcepts)"
    | some _ =>
      match doc.methods with
      | none => .error "TypeError: undefined has no slice (doc.methods)"
      | some _ => .ok (processDoc st (toDocument doc))

/-- `buildGlobalGraph` over raw records: the per-document fold, with a
TypeError aborting the whole call. -/
def buildGlobalGraphRaw (documents : List RawDocument) :
    Except String KnowledgeGraphData := do
  let st ← documents.foldlM processDocRaw ⟨[], []⟩
  return ⟨st.nodes, st.edges⟩

/-- A fully-present raw record with a null institute and empty arrays. -/
def rawOkDoc : RawDocument :=
  ⟨"7", "T7", "2024", "s7", some [], none, some [], some []⟩

/-- A raw record whose authors array is missing. -/
def rawBadDoc : RawDocument :=
  ⟨"8", "T8", "2024", "s8", none, none, some [], some []⟩

/-- The pure highlight decision of the view component, as three opacity
assignments (circles, labels, links). -/
structure HighlightView where
  circleOpacity : GraphNode → ℚ
  labelOpacity : GraphNode → ℚ
  linkOpacity : GraphEdge → ℚ

/-- `Set.add`: append the id unless already present. -/
def insertId (ids : List String) (x : String) : List String :=
  if ids.any (fun i => i == x) then ids else ids ++ [x]

/-- The loop body of `handleHighlight`'s edge pass: if the edge touches the
selected id, add the opposite endpoint to the set. -/
def highlightStep (targetNodeId : String) (ids : List String) (e : GraphEdge) :
    List String :=
  let ids := if e.source == targetNodeId then insertId ids e.target else ids
  if e.target == targetNodeId then insertId ids e.source else ids

/-- The `linkedNodeIds` set built by `handleHighlight`: the selected id
plus, for every edge touching it, the opposite endpoint. -/
def linkedNodeIds (edges : List GraphEdge) (targetNodeId : String) : List String :=
  edges.foldl (highlightStep targetNodeId) [targetNodeId]

/-- `handleHighlight`: with no selection, circles and labels at opacity 1
and links at their 0.6 baseline; with a selected id, members of the
1-hop set keep opacity 1 (links with both ends in the set get 0.8),
everything else is dimmed to 0.1 (links 0.05). -/
def handleHighlight (data : KnowledgeGraphData) (targetNodeId : Option String) :
    HighlightView :=
  match targetNodeId with
  | none => ⟨fun _ => 1, fun _ => 1, fun _ => 0.6⟩
  | some tid =>
    let ids := linkedNodeIds data.edges tid
    ⟨fun n => if ids.any (fun i => i == n.id) then 1 else 0.1,
     fun n => if ids.any (fun i => i == n.id) then 1 else 0.1,
     fun e => if ids.any (fun i => i == e.source) && ids.any (fun i => i == e.target)
       then 0.8 else 0.05⟩

/-- The declarative 1-hop neighborhood: the selected node itself plus every
node sharing an edge with it. -/
abbrev Neighborhood (data : KnowledgeGraphData) (tid nid : String) : Prop :=
  nid = tid ∨ ∃ e ∈ data.edges,
    (e.source = tid ∧ e.target = nid) ∨ (e.target = tid ∧ e.source = nid)

/-- The concrete highlight test graph: edges A-B, A-C and D-E. -/
def highlightData : KnowledgeGraphData :=
  ⟨[⟨"A", "A", "PAPER", 10, none⟩, ⟨"B", "B", "AUTHOR", 5, none⟩,
    ⟨"C", "C", "AUTHOR", 5, none⟩, ⟨"D", "D", "CONCEPT", 3, none⟩,
    ⟨"E", "E", "CONCEPT", 3, none⟩],
   [⟨"A", "B", "r"⟩, ⟨"A", "C", "r"⟩, ⟨"D", "E", "r"⟩]⟩

/-- `getRadius` of the view component: a group-specific base plus the
weight capped at a small maximum increment. -/
def getRadius (group : String) (val : Nat) : Nat :=
  if group = "PAPER" then 12 + min val 5
  else if group = "AUTHOR" then 8 + min val 3
  else if group = "INSTITUTE" then 10
  else 5 + min val 3

/-- The collision-force radius: rendered radius plus a 5 unit margin. -/
def collideRadius (group : String) (val : Nat) : Nat :=
  getRadius group val + 5

/-- The group-specific base of `getRadius`. -/
def radiusBase (group : String) : Nat :=
  if group = "PAPER" then 12
  else if group = "AUTHOR" then 8
  else if group = "INSTITUTE" then 10
  else 5

/-- The maximum weight-driven increment of `getRadius` per group. -/
def radiusCap (group : String) : Nat :=
  if group = "PAPER" then 5
  else if group = "AUTHOR" then 3
  else if group = "INSTITUTE" then 0
  else 3

/-- A node as the simulation sees it: the graph fields plus position and
the optional drag pin. -/
structure SimNode where
  id : String
  label : String
  group : String
  val : Nat
  x : ℚ
  y : ℚ
  fx : Option ℚ
  fy : Option ℚ
deriving DecidableEq, Repr

/-- The state a drag handler touches: the simulation's alpha target and the
dragged node (the event subject). -/
structure DragState where
  alphaTarget : ℚ
  subject : SimNode
deriving DecidableEq, Repr

/-- `dragstarted`: re-heat the simulation when no other gesture is active,
then pin the subject at its current position. -/
def dragstarted (eventActive : Bool) (st : DragState) : DragState :=
  let st := if eventActive then st else { st with alphaTarget := 0.3 }
  { st with subject :=
    { st.subject with fx := some st.subject.x, fy := some st.subject.y } }

/-- `dragged`: move the pin to the pointer position. -/
def dragged (eventX eventY : ℚ) (st : DragState) : DragState :=
  { st with subject := { st.subject with fx := some eventX, fy := some eventY } }

/-- `dragended`: cool the simulation when no other gesture is active, then
clear the pin. -/
def dragended (eventActive : Bool) (st : DragState) : DragState :=
  let st := if eventActive then st else { st with alphaTarget := 0 }
  { st with subject := { st.subject with fx := none, fy := none } }

/-- A concrete drag state for the witness: an unpinned node at (1, 2). -/
def dragDemoState : DragState :=
  ⟨0, ⟨"n1", "n1", "PAPER", 10, 1, 2, none, none⟩⟩

end IRDA

namespace IRDA

theorem addNode_edges (st : BuildState) (c : GraphNode) :
    (addNode st c).edges = st.edges := rfl

theorem addEdge_nodes (st : BuildState) (e : GraphEdge) :
    (addEdge st e).nodes = st.nodes := rfl

/-- A fold that interleaves one `addNode` and one `addEdge` per element
splits into the two independent replays. -/
theorem foldl_addNode_addEdge {α : Type} (nc : α → GraphNode) (ec : α → GraphEdge)
    (xs : List α) (st : BuildState) :
    xs.foldl (fun s x => addEdge (addNode s (nc x)) (ec x)) st =
      ⟨List.foldl addNodeL st.nodes (xs.map nc),
       List.foldl addEdgeL st.edges (xs.map ec)⟩ := by
  induction xs generalizing st with
  | nil => rfl
  | cons x xs ih =>
    rw [List.foldl_cons, ih]
    rfl

/-- A fold of pure `addEdge` calls leaves the node map alone. -/
theorem foldl_addEdge {α : Type} (ec : α → GraphEdge) (xs : List α) (st : BuildState) :
    xs.foldl (fun s x => addEdge s (ec x)) st =
      ⟨st.nodes, List.foldl addEdgeL st.edges (xs.map ec)⟩ := by
  induction xs generalizing st with
  | nil => rfl
  | cons x xs ih =>
    rw [List.foldl_cons, ih]
    rfl

/-- Per-document decomposition: processing a document extends the node map
by its node-call stream and the edge array by its edge-call stream. -/
theorem processDoc_eq (st : BuildState) (doc : ResearchDocument) :
    processDoc st doc =
      ⟨List.foldl addNodeL st.nodes (nodeCallsOfDoc doc),
       List.foldl addEdgeL st.edges (edgeCallsOfDoc doc)⟩ := by
  unfold processDoc nodeCallsOfDoc edgeCallsOfDoc
  cases doc.institute with
  | none =>
    simp only [foldl_addNode_addEdge, foldl_addEdge, List.foldl_append,
      List.foldl_cons, List.foldl_nil, List.append_nil, List.nil_append]
    rfl
  | some institute =>
    by_cases hi : institute = "" <;>
      simp only [hi, if_true, if_false, foldl_addNode_addEdge, foldl_addEdge,
        List.foldl_append, List.foldl_cons, List.foldl_nil, List.append_nil,
        List.nil_append, addNode_edges, addEdge_nodes] <;>
      rfl

/-- Whole-build decomposition, generalized over the starting state. -/
theorem build_foldl (documents : List ResearchDocument) (st : BuildState) :
    documents.foldl processDoc st =
      ⟨List.foldl addNodeL st.nodes (nodeCalls documents),
       List.foldl addEdgeL st.edges (edgeCalls documents)⟩ := by
  induction documents generalizing st with
  | nil => rfl
  | cons d ds ih =>
    rw [List.foldl_cons, ih, processDoc_eq]
    simp only [nodeCalls, edgeCalls, List.flatMap_cons, List.foldl_append]

/-- The builder is the pair of independent replays of its node-call and
edge-call streams. -/
theorem build_eq (documents : List ResearchDocument) :
    buildGlobalGraph documents = ⟨nodesOf (nodeCalls documents), edgesOf (edgeCalls documents)⟩ := by
  unfold buildGlobalGraph nodesOf edgesOf
  rw [build_foldl]

/-- The bump pass of `addNodeL` preserves ids, so it commutes with
filtering by id. -/
theorem filter_map_bump (ns : List GraphNode) (cid i : String) :
    (ns.map (fun n => if n.id == cid then { n with val := n.val + 1 } else n)).filter
        (fun n => n.id == i) =
      (ns.filter (fun n => n.id == i)).map
        (fun n => if n.id == cid then { n with val := n.val + 1 } else n) := by
  rw [List.filter_map]
  congr 1
  apply List.filter_congr
  intro n _
  by_cases h : n.id = cid <;> simp [h]

/-- One `addNode` step, viewed through the filter for a fixed id. -/
theorem filter_addNodeL (ns : List GraphNode) (c : GraphNode) (i : String)
    (h : uniqIds ns) :
    (addNodeL ns c).filter (fun n => n.id == i) =
      if c.id = i then mergeCalls (ns.filter (fun n => n.id == i)) [c]
      else ns.filter (fun n => n.id == i) := by
  unfold addNodeL
  by_cases hex : ns.any (fun n => n.id == c.id) = true
  · rw [if_pos hex, filter_map_bump]
    by_cases hc : c.id = i
    · subst hc
      obtain ⟨n, hn, hid⟩ := List.any_eq_true.mp hex
      have hne : ns.filter (fun n => n.id == c.id) ≠ [] := by
        intro hnil
        have := List.filter_eq_nil_iff.mp hnil n hn
        exact this hid
      have hlen := h c.id
      rw [if_pos rfl]
      cases hfil : ns.filter (fun n => n.id == c.id) with
      | nil => exact absurd hfil hne
      | cons m t =>
        cases t with
        | cons m2 t2 => rw [hfil] at hlen; simp at hlen
        | nil =>
          have hmem : m ∈ ns.filter (fun n2 => n2.id == c.id) := by
            rw [hfil]
            exact List.mem_cons_self m []
          have hm : m.id = c.id := by
            have := (List.mem_filter.mp hmem).2
            simpa using this
          simp [hm, mergeCalls]
    · rw [if_neg hc]
      apply List.map_congr_left ?_ |>.trans (List.map_id _)
      intro n hn
      have hni : (n.id == i) = true := (List.mem_filter.mp hn).2
      have : ¬(n.id == c.id) = true := by
        simp only [beq_iff_eq] at hni ⊢
        rw [hni]
        exact fun hh => hc hh.symm
      simp [this]
  · rw [if_neg hex, List.filter_append]
    have hnil : ∀ j : String, c.id = j → ns.filter (fun n => n.id == j) = [] := by
      intro j hj
      apply List.filter_eq_nil_iff.mpr
      intro n hn hc2
      apply hex
      apply List.any_eq_true.mpr
      exact ⟨n, hn, by simp only [beq_iff_eq] at hc2 ⊢; rw [hc2, hj]⟩
    by_cases hc : c.id = i
    · rw [if_pos hc, hnil i hc]
      simp [hc, mergeCalls]
    · rw [if_neg hc]
      have : (c.id == i) = false := by simp [hc]
      simp [List.filter_cons, this]

/-- `addNodeL` preserves uniqueness of ids. -/
theorem uniqIds_addNodeL (ns : List GraphNode) (c : GraphNode) (h : uniqIds ns) :
    uniqIds (addNodeL ns c) := by
  intro i
  unfold addNodeL
  by_cases hex : ns.any (fun n => n.id == c.id) = true
  · rw [if_pos hex, filter_map_bump, List.length_map]
    exact h i
  · rw [if_neg hex, List.filter_append]
    by_cases hc : c.id = i
    · have hnil : ns.filter (fun n => n.id == i) = [] := by
        apply List.filter_eq_nil_iff.mpr
        intro n hn hc2
        apply hex
        apply List.any_eq_true.mpr
        refine ⟨n, hn, ?_⟩
        simp only [beq_iff_eq] at hc2 ⊢
        rw [hc2, hc]
      simp [hnil, hc]
    · have : (c.id == i) = false := by simp [hc]
      simp [List.filter_cons, this]
      exact h i

/-- The empty node map has unique ids. -/
theorem uniqIds_nil : uniqIds ([] : List GraphNode) := by
  intro i
  simp

/-- Replaying preserves uniqueness of ids. -/
theorem uniqIds_foldl (calls : List GraphNode) :
    ∀ ns, uniqIds ns → uniqIds (List.foldl addNodeL ns calls) := by
  induction calls with
  | nil => exact fun ns h => h
  | cons c cs ih => exact fun ns h => ih _ (uniqIds_addNodeL ns c h)

/-- The node map built by a replay has unique ids. -/
theorem uniqIds_nodesOf (calls : List GraphNode) : uniqIds (nodesOf calls) :=
  uniqIds_foldl calls [] uniqIds_nil

/-- Characterization of a replay through the filter for a fixed id,
generalized over the accumulator. -/
theorem foldl_addNodeL_filter (i : String) (calls : List GraphNode) :
    ∀ ns, uniqIds ns →
      (List.foldl addNodeL ns calls).filter (fun n => n.id == i) =
        mergeCalls (ns.filter (fun n => n.id == i))
          (calls.filter (fun c => c.id == i)) := by
  induction calls with
  | nil => intro ns _; rfl
  | cons c cs ih =>
    intro ns h
    rw [List.foldl_cons, ih _ (uniqIds_addNodeL ns c h), filter_addNodeL ns c i h]
    by_cases hc : c.id = i
    · rw [if_pos hc]
      have : (c.id == i) = true := by simp [hc]
      rw [List.filter_cons, this]
      rfl
    · rw [if_neg hc]
      have : (c.id == i) = false := by simp [hc]
      rw [List.filter_cons, this]
      rfl

/-- The nodes under a fixed id are the merge of that id's call stream. -/
theorem nodesOf_filter (calls : List GraphNode) (i : String) :
    (nodesOf calls).filter (fun n => n.id == i) =
      mergeCalls [] (calls.filter (fun c => c.id == i)) :=
  foldl_addNodeL_filter i calls [] uniqIds_nil

/-- Merging a nonempty stream onto an existing node just adds the stream's
length to its weight. -/
theorem mergeCalls_singleton (n : GraphNode) (cs : List GraphNode) :
    mergeCalls [n] cs = [{ n with val := n.val + cs.length }] := by
  induction cs generalizing n with
  | nil => rfl
  | cons c cs ih =>
    have h1 : mergeCalls [n] (c :: cs) = mergeCalls [{ n with val := n.val + 1 }] cs := rfl
    rw [h1, ih]
    have : n.val + 1 + cs.length = n.val + (c :: cs).length := by
      simp
      omega
    simp only [this]

/-- Merging a nonempty call stream from scratch: the first call's node,
with one weight increment per further call. -/
theorem mergeCalls_nil_cons (c : GraphNode) (cs : List GraphNode) :
    mergeCalls [] (c :: cs) = [{ c with val := c.val + cs.length }] := by
  have h1 : mergeCalls [] (c :: cs) = mergeCalls [c] cs := rfl
  rw [h1, mergeCalls_singleton]

/-- Pointwise-equal predicates give the same `any`. -/
theorem listAny_congr {α : Type} (l : List α) (p q : α → Bool) (h : ∀ a, p a = q a) :
    l.any p = l.any q := by
  induction l with
  | nil => rfl
  | cons a t ih => simp [List.any_cons, h a, ih]

/-- One `addNode` step, viewed through id-presence. -/
theorem any_addNodeL (ns : List GraphNode) (c : GraphNode) (i : String) :
    (addNodeL ns c).any (fun n => n.id == i) =
      (ns.any (fun n => n.id == i) || c.id == i) := by
  unfold addNodeL
  by_cases hex : ns.any (fun n => n.id == c.id) = true
  · rw [if_pos hex, List.any_map]
    have hsame : ns.any ((fun n => n.id == i) ∘ fun n =>
        if n.id == c.id then { n with val := n.val + 1 } else n) =
        ns.any (fun n => n.id == i) := by
      apply listAny_congr
      intro n
      by_cases h : n.id = c.id <;> simp [h]
    rw [hsame]
    by_cases hc : c.id = i
    · obtain ⟨n, hn, hid⟩ := List.any_eq_true.mp hex
      have : ns.any (fun n => n.id == i) = true := by
        apply List.any_eq_true.mpr
        refine ⟨n, hn, ?_⟩
        simp only [beq_iff_eq] at hid ⊢
        rw [hid, hc]
      simp [this]
    · have : (c.id == i) = false := by simp [hc]
      simp [this]
  · rw [if_neg hex, List.any_append]
    simp

/-- Replay id-presence, generalized over the accumulator. -/
theorem any_foldl_addNodeL (i : String) (calls : List GraphNode) :
    ∀ ns, (List.foldl addNodeL ns calls).any (fun n => n.id == i) =
      (ns.any (fun n => n.id == i) || calls.any (fun c => c.id == i)) := by
  induction calls with
  | nil => intro ns; simp
  | cons c cs ih =>
    intro ns
    rw [List.foldl_cons, ih, any_addNodeL]
    simp [Bool.or_assoc]

/-- A node id is present in the replayed map exactly when some call used it. -/
theorem nodesOf_any (calls : List GraphNode) (i : String) :
    (nodesOf calls).any (fun n => n.id == i) = calls.any (fun c => c.id == i) := by
  unfold nodesOf
  rw [any_foldl_addNodeL]
  simp

/-- Unfolding of `symMatch` to propositions. -/
theorem symMatch_iff (e : GraphEdge) (s t r : String) :
    symMatch e s t r = true ↔
      (e.source = s ∧ e.target = t ∧ e.relation = r) ∨
      (e.source = t ∧ e.target = s ∧ e.relation = r) := by
  simp [symMatch, and_assoc]

/-- `symMatch` is symmetric in the queried endpoints. -/
theorem symMatch_swap (e : GraphEdge) (s t r : String) :
    symMatch e s t r = symMatch e t s r := by
  unfold symMatch
  rw [Bool.or_comm]

/-- The duplicate check is symmetric in the queried endpoints. -/
theorem edgeExists_swap (es : List GraphEdge) (s t r : String) :
    edgeExists es s t r = edgeExists es t s r :=
  listAny_congr _ _ _ (fun e => symMatch_swap e s t r)

theorem edgeExists_append (es1 es2 : List GraphEdge) (s t r : String) :
    edgeExists (es1 ++ es2) s t r = (edgeExists es1 s t r || edgeExists es2 s t r) :=
  List.any_append

/-- `sameUndirected` is the propositional reading of `symMatch` against an
edge's own fields. -/
theorem sameUndirected_iff_symMatch (a e : GraphEdge) :
    sameUndirected a e ↔ symMatch a e.source e.target e.relation = true := by
  rw [symMatch_iff]
  unfold sameUndirected
  tauto

/-- A non-self-loop edge only sym-matches queries with distinct endpoints. -/
theorem symMatch_ne (e : GraphEdge) (s t r : String) (hm : symMatch e s t r = true)
    (h : e.source ≠ e.target) : s ≠ t := by
  rcases (symMatch_iff e s t r).mp hm with ⟨h1, h2, _⟩ | ⟨h1, h2, _⟩ <;>
    exact fun hst => h (h1.trans (hst ▸ h2.symm))

/-- A self-loop edge only sym-matches self-loop queries. -/
theorem symMatch_self (e : GraphEdge) (s t r : String) (hm : symMatch e s t r = true)
    (h : e.source = e.target) : s = t := by
  rcases (symMatch_iff e s t r).mp hm with ⟨h1, h2, _⟩ | ⟨h1, h2, _⟩
  · exact (h1.symm.trans h).trans h2
  · exact (h2.symm.trans h.symm).trans h1

/-- Sym-equivalent queries agree on every edge list. -/
theorem edgeExists_congr (es : List GraphEdge) (e : GraphEdge) (s t r : String)
    (hm : symMatch e s t r = true) :
    edgeExists es s t r = edgeExists es e.source e.target e.relation := by
  rcases (symMatch_iff e s t r).mp hm with ⟨h1, h2, h3⟩ | ⟨h1, h2, h3⟩
  · rw [← h1, ← h2, ← h3]
  · rw [← h1, ← h2, ← h3, edgeExists_swap]

/-- One `addEdge` step, viewed through the duplicate check: the accepted
content grows by the call exactly when the call is not a self-loop. -/
theorem edgeExists_addEdgeL (es : List GraphEdge) (e : GraphEdge) (s t r : String) :
    edgeExists (addEdgeL es e) s t r =
      (edgeExists es s t r || ((!(s == t)) && symMatch e s t r)) := by
  unfold addEdgeL
  by_cases h1 : (e.source == e.target) = true
  · rw [if_pos h1]
    have hself : e.source = e.target := by simpa using h1
    cases hm : symMatch e s t r with
    | false => simp
    | true =>
      have : s = t := symMatch_self e s t r hm hself
      simp [this]
  · rw [if_neg h1]
    have hne : e.source ≠ e.target := by simpa using h1
    by_cases h2 : edgeExists es e.source e.target e.relation = true
    · rw [if_pos h2]
      cases hm : symMatch e s t r with
      | false => simp
      | true =>
        have : edgeExists es s t r = true := by
          rw [edgeExists_congr es e s t r hm]
          exact h2
        simp [this]
    · rw [if_neg h2, edgeExists_append]
      cases hm : symMatch e s t r with
      | false => simp [edgeExists, hm]
      | true =>
        have hst : s ≠ t := symMatch_ne e s t r hm hne
        have : (s == t) = false := by simp [hst]
        simp [edgeExists, hm, this]

/-- `addEdge` preserves absence of self-loops. -/
theorem noSelfLoops_addEdgeL (es : List GraphEdge) (e : GraphEdge)
    (h : ∀ e2 ∈ es, e2.source ≠ e2.target) :
    ∀ e2 ∈ addEdgeL es e, e2.source ≠ e2.target := by
  unfold addEdgeL
  by_cases h1 : (e.source == e.target) = true
  · simpa [h1] using h
  · rw [if_neg h1]
    by_cases h2 : edgeExists es e.source e.target e.relation = true
    · simpa [h2] using h
    · rw [if_neg h2]
      intro e2 he2
      rcases List.mem_append.mp he2 with h3 | h3
      · exact h e2 h3
      · have he : e2 = e := by simpa using h3
        subst he
        simpa using h1

/-- Replay duplicate-check characterization, generalized over the
accumulator. -/
theorem edgeExists_foldl (s t r : String) (calls : List GraphEdge) :
    ∀ es, edgeExists (List.foldl addEdgeL es calls) s t r =
        (edgeExists es s t r || ((!(s == t)) && edgeExists calls s t r)) := by
  induction calls with
  | nil => intro es; simp [edgeExists]
  | cons c cs ih =>
    intro es
    rw [List.foldl_cons, ih, edgeExists_addEdgeL es c s t r]
    simp only [edgeExists, List.any_cons]
    rw [Bool.and_or_distrib_left, Bool.or_assoc]

/-- The replayed edge array contains (up to orientation) exactly the
non-self-loop calls. -/
theorem edgesOf_edgeExists (calls : List GraphEdge) (s t r : String) :
    edgeExists (edgesOf calls) s t r = ((!(s == t)) && edgeExists calls s t r) := by
  unfold edgesOf
  rw [edgeExists_foldl s t r calls []]
  simp [edgeExists]

/-- `addEdge` preserves the edge-array invariant. -/
theorem goodEdges_addEdgeL (es : List GraphEdge) (e : GraphEdge) (h : goodEdges es) :
    goodEdges (addEdgeL es e) := by
  obtain ⟨hs, hp⟩ := h
  unfold addEdgeL
  by_cases h1 : (e.source == e.target) = true
  · rw [if_pos h1]
    exact ⟨hs, hp⟩
  · rw [if_neg h1]
    by_cases h2 : edgeExists es e.source e.target e.relation = true
    · rw [if_pos h2]
      exact ⟨hs, hp⟩
    · rw [if_neg h2]
      constructor
      · intro e2 he2
        rcases List.mem_append.mp he2 with h3 | h3
        · exact hs e2 h3
        · have he : e2 = e := by simpa using h3
          subst he
          simpa using h1
      · rw [List.pairwise_append]
        refine ⟨hp, by simp, ?_⟩
        intro a ha b hb
        have hb' : b = e := by simpa using hb
        intro hsame
        rw [hb'] at hsame
        apply h2
        apply List.any_eq_true.mpr
        exact ⟨a, ha, (sameUndirected_iff_symMatch a e).mp hsame⟩

/-- Replaying preserves the edge-array invariant. -/
theorem goodEdges_foldl (calls : List GraphEdge) :
    ∀ es, goodEdges es → goodEdges (List.foldl addEdgeL es calls) := by
  induction calls with
  | nil => exact fun es h => h
  | cons c cs ih => exact fun es h => ih _ (goodEdges_addEdgeL es c h)

/-- Every replayed edge array satisfies the invariant. -/
theorem goodEdges_edgesOf (calls : List GraphEdge) : goodEdges (edgesOf calls) :=
  goodEdges_foldl calls [] ⟨by simp, by simp⟩

theorem mem_addEdgeL (es : List GraphEdge) (e e2 : GraphEdge) (h : e2 ∈ addEdgeL es e) :
    e2 ∈ es ∨ e2 = e := by
  unfold addEdgeL at h
  by_cases h1 : (e.source == e.target) = true
  · rw [if_pos h1] at h
    exact Or.inl h
  · rw [if_neg h1] at h
    by_cases h2 : edgeExists es e.source e.target e.relation = true
    · rw [if_pos h2] at h
      exact Or.inl h
    · rw [if_neg h2] at h
      rcases List.mem_append.mp h with h3 | h3
      · exact Or.inl h3
      · exact Or.inr (by simpa using h3)

theorem mem_foldl_addEdgeL (calls : List GraphEdge) :
    ∀ es e2, e2 ∈ List.foldl addEdgeL es calls → e2 ∈ es ∨ e2 ∈ calls := by
  induction calls with
  | nil => exact fun es e2 h => Or.inl h
  | cons c cs ih =>
    intro es e2 h
    rcases ih _ e2 h with h3 | h3
    · rcases mem_addEdgeL es c e2 h3 with h4 | h4
      · exact Or.inl h4
      · refine Or.inr ?_
        rw [h4]
        exact List.mem_cons_self c cs
    · exact Or.inr (List.mem_cons_of_mem c h3)

/-- Every edge kept by the replay is one of the calls. -/
theorem mem_edgesOf (calls : List GraphEdge) (e2 : GraphEdge) (h : e2 ∈ edgesOf calls) :
    e2 ∈ calls := by
  rcases mem_foldl_addEdgeL calls [] e2 h with h3 | h3
  · simp at h3
  · exact h3

theorem headChar_append (s t : String) (ch : Char) (rest : List Char)
    (h : s.data = ch :: rest) : headChar (s ++ t) = some ch := by
  unfold headChar
  rw [String.data_append, h]
  rfl

theorem ne_of_headChar {s t : String} (h : headChar s ≠ headChar t) : s ≠ t :=
  fun he => h (he ▸ rfl)

theorem string_append_left_cancel {p x y : String} (h : p ++ x = p ++ y) : x = y := by
  have hd : (p ++ x).data = (p ++ y).data := by rw [h]
  rw [String.data_append, String.data_append] at hd
  exact String.ext (List.append_cancel_left hd)

theorem string_append_beq (p x y : String) : ((p ++ x) == (p ++ y)) = (x == y) := by
  by_cases h : x = y
  · simp [h]
  · have hne : ¬(p ++ x = p ++ y) := fun hc => h (string_append_left_cancel hc)
    simp [h, hne]

theorem headChar_paperCall (doc : ResearchDocument) :
    headChar (paperCall doc).id = some 'p' :=
  headChar_append "paper:" doc.id 'p' ['a', 'p', 'e', 'r', ':'] rfl

theorem headChar_authorCall (a : String) :
    headChar (authorCall a).id = some 'a' :=
  headChar_append "author:" (jsTrim a) 'a' ['u', 't', 'h', 'o', 'r', ':'] rfl

theorem headChar_instCall (s : String) :
    headChar (instCall s).id = some 'i' :=
  headChar_append "inst:" (jsTrim s) 'i' ['n', 's', 't', ':'] rfl

theorem headChar_conceptCall (s : String) :
    headChar (conceptCall s).id = some 'c' :=
  headChar_append "concept:" (jsTrim (jsToLower s)) 'c'
    ['o', 'n', 'c', 'e', 'p', 't', ':'] rfl

theorem headChar_methodCall (s : String) :
    headChar (methodCall s).id = some 'm' :=
  headChar_append "method:" (jsTrim (jsToLower s)) 'm'
    ['e', 't', 'h', 'o', 'd', ':'] rfl

/-- Every call in a document's node-call stream has one of the five shapes. -/
theorem callShape_nodeCallsOfDoc (doc : ResearchDocument) (c : GraphNode)
    (h : c ∈ nodeCallsOfDoc doc) : callShape c := by
  unfold nodeCallsOfDoc at h
  rcases List.mem_cons.mp h with h | h
  · exact Or.inl ⟨doc, h⟩
  rcases List.mem_append.mp h with h | h
  · rcases List.mem_map.mp h with ⟨a, _, ha⟩
    exact Or.inr (Or.inl ⟨a, ha.symm⟩)
  rcases List.mem_append.mp h with h | h
  · cases hi : doc.institute with
    | none =>
      rw [hi] at h
      simp at h
    | some s =>
      rw [hi] at h
      have h' : c ∈ (if s = "" then ([] : List GraphNode) else [instCall s]) := h
      by_cases hs : s = ""
      · rw [if_pos hs] at h'
        simp at h'
      · rw [if_neg hs] at h'
        have : c = instCall s := by simpa using h'
        exact Or.inr (Or.inr (Or.inl ⟨s, this⟩))
  rcases List.mem_append.mp h with h | h
  · rcases List.mem_map.mp h with ⟨s, _, hs⟩
    exact Or.inr (Or.inr (Or.inr (Or.inl ⟨s, hs.symm⟩)))
  · rcases List.mem_map.mp h with ⟨s, _, hs⟩
    exact Or.inr (Or.inr (Or.inr (Or.inr ⟨s, hs.symm⟩)))

/-- Every call in the whole node-call stream has one of the five shapes. -/
theorem callShape_nodeCalls (documents : List ResearchDocument) (c : GraphNode)
    (h : c ∈ nodeCalls documents) : callShape c := by
  unfold nodeCalls at h
  rcases List.mem_flatMap.mp h with ⟨d, _, hd⟩
  exact callShape_nodeCallsOfDoc d c hd

/-- Each call shape fixes the group, the base weight and the id namespace. -/
theorem callShape_groupVal (c : GraphNode) (h : callShape c) :
    (c.group = "PAPER" ∧ c.val = 10 ∧ headChar c.id = some 'p') ∨
    (c.group = "AUTHOR" ∧ c.val = 5 ∧ headChar c.id = some 'a') ∨
    (c.group = "INSTITUTE" ∧ c.val = 6 ∧ headChar c.id = some 'i') ∨
    (c.group = "CONCEPT" ∧ c.val = 3 ∧ headChar c.id = some 'c') ∨
    (c.group = "METHOD" ∧ c.val = 3 ∧ headChar c.id = some 'm') := by
  rcases h with ⟨doc, rfl⟩ | ⟨a, rfl⟩ | ⟨s, rfl⟩ | ⟨s, rfl⟩ | ⟨s, rfl⟩
  · exact Or.inl ⟨rfl, rfl, headChar_paperCall doc⟩
  · exact Or.inr (Or.inl ⟨rfl, rfl, headChar_authorCall a⟩)
  · exact Or.inr (Or.inr (Or.inl ⟨rfl, rfl, headChar_instCall s⟩))
  · exact Or.inr (Or.inr (Or.inr (Or.inl ⟨rfl, rfl, headChar_conceptCall s⟩)))
  · exact Or.inr (Or.inr (Or.inr (Or.inr ⟨rfl, rfl, headChar_methodCall s⟩)))

/-- Among builder calls, the id determines the group and the base weight. -/
theorem id_determines_groupVal (c c' : GraphNode) (hc : callShape c)
    (hc' : callShape c') (hid : c.id = c'.id) :
    c.group = c'.group ∧ c.val = c'.val := by
  have h1 := callShape_groupVal c hc
  have h2 := callShape_groupVal c' hc'
  rw [hid] at h1
  rcases h1 with ⟨g1, v1, hh1⟩ | ⟨g1, v1, hh1⟩ | ⟨g1, v1, hh1⟩ | ⟨g1, v1, hh1⟩ | ⟨g1, v1, hh1⟩ <;>
    rcases h2 with ⟨g2, v2, hh2⟩ | ⟨g2, v2, hh2⟩ | ⟨g2, v2, hh2⟩ | ⟨g2, v2, hh2⟩ | ⟨g2, v2, hh2⟩ <;>
    first
      | exact ⟨g1.trans g2.symm, v1.trans v2.symm⟩
      | (rw [hh1] at hh2; exact absurd hh2 (by decide))

/-- A builder call whose id is `author:<name>` is exactly the AUTHOR call
for that name. -/
theorem author_call_determined (documents : List ResearchDocument) (c : GraphNode)
    (name : String) (h : c ∈ nodeCalls documents) (hid : c.id = "author:" ++ name) :
    c = ⟨"author:" ++ name, name, "AUTHOR", 5, none⟩ := by
  have ha : headChar c.id = some 'a' := by
    rw [hid]
    exact headChar_append "author:" name 'a' ['u', 't', 'h', 'o', 'r', ':'] rfl
  rcases callShape_nodeCalls documents c h with ⟨doc, rfl⟩ | ⟨a, rfl⟩ | ⟨s, rfl⟩ | ⟨s, rfl⟩ | ⟨s, rfl⟩
  · exact absurd ((headChar_paperCall doc).symm.trans ha) (by decide)
  · have htrim : jsTrim a = name := string_append_left_cancel hid
    rw [authorCall, htrim]
  · exact absurd ((headChar_instCall s).symm.trans ha) (by decide)
  · exact absurd ((headChar_conceptCall s).symm.trans ha) (by decide)
  · exact absurd ((headChar_methodCall s).symm.trans ha) (by decide)

/-- Pointwise-equal predicates count the same. -/
theorem listCountP_congr {α : Type} (l : List α) (p q : α → Bool) (h : ∀ a, p a = q a) :
    l.countP p = l.countP q := by
  induction l with
  | nil => rfl
  | cons a t ih => rw [List.countP_cons, List.countP_cons, h a, ih]

/-- Per-document count of AUTHOR calls under a fixed name. -/
theorem countP_nodeCallsOfDoc_author (doc : ResearchDocument) (name : String) :
    (nodeCallsOfDoc doc).countP (fun c => c.id == "author:" ++ name) =
      doc.authors.countP (fun a => jsTrim a == name) := by
  have haid : ∀ s : String, headChar ("author:" ++ s) = some 'a' :=
    fun s => headChar_append "author:" s 'a' ['u', 't', 'h', 'o', 'r', ':'] rfl
  unfold nodeCallsOfDoc
  rw [List.countP_cons]
  have hp : ((paperCall doc).id == "author:" ++ name) = false := by
    apply beq_eq_false_iff_ne.mpr
    apply ne_of_headChar
    rw [headChar_paperCall doc, haid name]
    decide
  rw [hp, if_neg (show ¬(false = true) by decide), Nat.add_zero]
  rw [List.countP_append, List.countP_append, List.countP_append, List.countP_map,
    List.countP_map, List.countP_map]
  have hco : ((doc.keyConcepts.take 5).countP
      ((fun c => c.id == "author:" ++ name) ∘ conceptCall)) = 0 := by
    apply List.countP_eq_zero.mpr
    intro a _
    simp only [Function.comp_apply]
    intro hbe
    exact (ne_of_headChar (by rw [headChar_conceptCall a, haid name]; decide))
      (beq_iff_eq.mp hbe)
  have hme : ((doc.methods.take 3).countP
      ((fun c => c.id == "author:" ++ name) ∘ methodCall)) = 0 := by
    apply List.countP_eq_zero.mpr
    intro a _
    simp only [Function.comp_apply]
    intro hbe
    exact (ne_of_headChar (by rw [headChar_methodCall a, haid name]; decide))
      (beq_iff_eq.mp hbe)
  have hin : List.countP (fun c : GraphNode => c.id == "author:" ++ name)
      (match doc.institute with
      | none => []
      | some institute => if institute = "" then [] else [instCall institute]) = 0 := by
    cases doc.institute with
    | none => rfl
    | some s =>
      have hred : (match some s with
          | none => ([] : List GraphNode)
          | some institute => if institute = "" then [] else [instCall institute]) =
          if s = "" then [] else [instCall s] := rfl
      rw [hred]
      by_cases hs : s = ""
      · rw [if_pos hs]
        rfl
      · rw [if_neg hs]
        apply List.countP_eq_zero.mpr
        intro a ha
        have haa : a = instCall s := by simpa using ha
        rw [haa]
        intro hbe
        exact (ne_of_headChar (by rw [headChar_instCall s, haid name]; decide))
          (beq_iff_eq.mp hbe)
  have hau : doc.authors.countP ((fun c => c.id == "author:" ++ name) ∘ authorCall) =
      doc.authors.countP (fun a => jsTrim a == name) := by
    apply listCountP_congr
    intro a
    simp only [Function.comp_apply, authorCall]
    exact string_append_beq "author:" (jsTrim a) name
  rw [hco, hme, hin, hau]
  omega

/-- The AUTHOR-call count for a name over the whole stream is the name's
occurrence count over the documents. -/
theorem countP_nodeCalls_author (documents : List ResearchDocument) (name : String) :
    (nodeCalls documents).countP (fun c => c.id == "author:" ++ name) =
      authorOccurrences documents name := by
  unfold nodeCalls authorOccurrences
  induction documents with
  | nil => rfl
  | cons d ds ih =>
    rw [List.flatMap_cons, List.countP_append, countP_nodeCallsOfDoc_author,
      List.map_cons, List.sum_cons, ih]

/-- Filtering by a relation keeps the duplicate check for that relation. -/
theorem edgeExists_filter_rel (es : List GraphEdge) (s t r : String) :
    edgeExists (es.filter (fun e2 => e2.relation == r)) s t r = edgeExists es s t r := by
  apply Bool.eq_iff_iff.mpr
  unfold edgeExists
  rw [List.any_eq_true, List.any_eq_true]
  constructor
  · rintro ⟨x, hx, hp⟩
    exact ⟨x, (List.mem_filter.mp hx).1, hp⟩
  · rintro ⟨x, hx, hp⟩
    refine ⟨x, List.mem_filter.mpr ⟨hx, ?_⟩, hp⟩
    rcases (symMatch_iff x s t r).mp hp with ⟨_, _, h3⟩ | ⟨_, _, h3⟩ <;> simp [h3]

/-- An `addEdge` whose call has the filtered relation commutes with the
relation filter. -/
theorem filter_rel_addEdgeL_eq (es : List GraphEdge) (e : GraphEdge) (r : String)
    (hr : e.relation = r) :
    (addEdgeL es e).filter (fun e2 => e2.relation == r) =
      addEdgeL (es.filter (fun e2 => e2.relation == r)) e := by
  unfold addEdgeL
  by_cases h1 : (e.source == e.target) = true
  · rw [if_pos h1, if_pos h1]
  · rw [if_neg h1, if_neg h1]
    have hq : edgeExists (es.filter (fun e2 => e2.relation == r))
        e.source e.target e.relation = edgeExists es e.source e.target e.relation := by
      rw [← hr] at *
      exact edgeExists_filter_rel es e.source e.target e.relation
    by_cases h2 : edgeExists es e.source e.target e.relation = true
    · rw [if_pos h2, hq, if_pos h2]
    · rw [if_neg h2, hq, if_neg h2, List.filter_append]
      have : (e.relation == r) = true := by simp [hr]
      simp [this]

/-- An `addEdge` whose call has a different relation leaves the filtered
view unchanged. -/
theorem filter_rel_addEdgeL_ne (es : List GraphEdge) (e : GraphEdge) (r : String)
    (hr : e.relation ≠ r) :
    (addEdgeL es e).filter (fun e2 => e2.relation == r) =
      es.filter (fun e2 => e2.relation == r) := by
  unfold addEdgeL
  by_cases h1 : (e.source == e.target) = true
  · rw [if_pos h1]
  · rw [if_neg h1]
    by_cases h2 : edgeExists es e.source e.target e.relation = true
    · rw [if_pos h2]
    · rw [if_neg h2, List.filter_append]
      have : (e.relation == r) = false := by simp [hr]
      simp [this]

/-- The relation filter commutes with an `addEdge` replay. -/
theorem filter_rel_foldl (r : String) (calls : List GraphEdge) :
    ∀ es, (List.foldl addEdgeL es calls).filter (fun e2 => e2.relation == r) =
      List.foldl addEdgeL (es.filter (fun e2 => e2.relation == r))
        (calls.filter (fun e2 => e2.relation == r)) := by
  induction calls with
  | nil => intro es; rfl
  | cons c cs ih =>
    intro es
    rw [List.foldl_cons, ih]
    by_cases hr : c.relation = r
    · rw [filter_rel_addEdgeL_eq es c r hr]
      have : (c.relation == r) = true := by simp [hr]
      rw [List.filter_cons, this]
      rfl
    · rw [filter_rel_addEdgeL_ne es c r hr]
      have : (c.relation == r) = false := by simp [hr]
      rw [List.filter_cons, this]
      rfl

theorem edgesOf_filter_rel (calls : List GraphEdge) (r : String) :
    (edgesOf calls).filter (fun e2 => e2.relation == r) =
      edgesOf (calls.filter (fun e2 => e2.relation == r)) := by
  unfold edgesOf
  rw [filter_rel_foldl]
  rfl

/-- Replaying an already self-loop-free, duplicate-free call stream keeps
every call. -/
theorem foldl_addEdgeL_clean (calls : List GraphEdge) :
    ∀ es, (∀ e ∈ calls, e.source ≠ e.target) →
      (∀ e ∈ calls, edgeExists es e.source e.target e.relation = false) →
      calls.Pairwise (fun a b => ¬ sameUndirected a b) →
      List.foldl addEdgeL es calls = es ++ calls := by
  induction calls with
  | nil =>
    intro es _ _ _
    rw [List.append_nil]
    rfl
  | cons c cs ih =>
    intro es h1 h2 hp
    have hself : (c.source == c.target) = false := by
      simp [h1 c (List.mem_cons_self c cs)]
    have hstep : addEdgeL es c = es ++ [c] := by
      unfold addEdgeL
      rw [hself]
      rw [if_neg (by decide : ¬(false = true)),
        h2 c (List.mem_cons_self c cs), if_neg (by decide : ¬(false = true))]
    rw [List.foldl_cons, hstep]
    rw [ih (es ++ [c]) (fun e he => h1 e (List.mem_cons_of_mem c he)) ?_ (List.Pairwise.sublist (List.sublist_cons_self c cs) hp)]
    · rw [List.append_assoc]
      rfl
    · intro e he
      rw [edgeExists_append]
      apply Bool.or_eq_false_iff.mpr
      constructor
      · exact h2 e (List.mem_cons_of_mem c he)
      · have hnc : ¬ sameUndirected c e := (List.pairwise_cons.mp hp).1 e he
        cases hm : symMatch c e.source e.target e.relation with
        | true => exact absurd ((sameUndirected_iff_symMatch c e).mpr hm) hnc
        | false => simp [edgeExists, hm]

theorem edgesOf_clean (calls : List GraphEdge)
    (h1 : ∀ e ∈ calls, e.source ≠ e.target)
    (hp : calls.Pairwise (fun a b => ¬ sameUndirected a b)) :
    edgesOf calls = calls := by
  unfold edgesOf
  rw [foldl_addEdgeL_clean calls [] h1 (fun e _ => rfl) hp]
  rfl

/-- One `addNode` step commutes with the group filter, provided group
membership is equivalent to an id predicate on all involved nodes. -/
theorem filter_group_addNodeL (ns : List GraphNode) (c : GraphNode) (g : String)
    (P : String → Bool)
    (hns : ∀ n ∈ ns, (n.group == g) = P n.id) (hc : (c.group == g) = P c.id) :
    (addNodeL ns c).filter (fun n => n.group == g) =
      if P c.id then addNodeL (ns.filter (fun n => n.group == g)) c
      else ns.filter (fun n => n.group == g) := by
  have hfm : ∀ d : String,
      (ns.map (fun n => if n.id == d then { n with val := n.val + 1 } else n)).filter
          (fun n => n.group == g) =
        (ns.filter (fun n => n.group == g)).map
          (fun n => if n.id == d then { n with val := n.val + 1 } else n) := by
    intro d
    rw [List.filter_map]
    congr 1
    apply List.filter_congr
    intro n _
    by_cases h : n.id = d <;> simp [h]
  unfold addNodeL
  by_cases hP : P c.id = true
  · rw [if_pos hP]
    by_cases hex : ns.any (fun n => n.id == c.id) = true
    · have hex2 : (ns.filter (fun n => n.group == g)).any
          (fun n => n.id == c.id) = true := by
        obtain ⟨n, hn, hni⟩ := List.any_eq_true.mp hex
        apply List.any_eq_true.mpr
        refine ⟨n, List.mem_filter.mpr ⟨hn, ?_⟩, hni⟩
        rw [hns n hn, beq_iff_eq.mp hni, hP]
      rw [if_pos hex, if_pos hex2, hfm]
    · have hex2 : ¬((ns.filter (fun n => n.group == g)).any
          (fun n => n.id == c.id) = true) := by
        intro hb
        obtain ⟨n, hn, hni⟩ := List.any_eq_true.mp hb
        exact hex (List.any_eq_true.mpr ⟨n, (List.mem_filter.mp hn).1, hni⟩)
      rw [if_neg hex, if_neg hex2, List.filter_append]
      have : (c.group == g) = true := hc.trans hP
      simp [this]
  · have hPf : P c.id = false := by
      cases hPc : P c.id with
      | true => exact absurd hPc hP
      | false => rfl
    rw [if_neg hP]
    by_cases hex : ns.any (fun n => n.id == c.id) = true
    · rw [if_pos hex, hfm]
      apply (List.map_congr_left ?_).trans (List.map_id _)
      intro n hn
      obtain ⟨hnmem, hng⟩ := List.mem_filter.mp hn
      have hfalse : (n.id == c.id) = false := by
        apply beq_eq_false_iff_ne.mpr
        intro hcon
        have h1 : P n.id = true := (hns n hnmem).symm.trans hng
        rw [hcon, hPf] at h1
        exact absurd h1 (by decide)
      simp [hfalse]
    · rw [if_neg hex, List.filter_append]
      have : (c.group == g) = false := hc.trans hPf
      simp [this]

/-- `addNode` preserves the "group is determined by the id predicate"
invariant. -/
theorem pred_addNodeL (ns : List GraphNode) (c : GraphNode) (g : String)
    (P : String → Bool)
    (hns : ∀ n ∈ ns, (n.group == g) = P n.id) (hc : (c.group == g) = P c.id) :
    ∀ n ∈ addNodeL ns c, (n.group == g) = P n.id := by
  unfold addNodeL
  by_cases hex : ns.any (fun n => n.id == c.id) = true
  · rw [if_pos hex]
    intro n hn
    obtain ⟨m, hm, hfm⟩ := List.mem_map.mp hn
    have hsame : n.group = m.group ∧ n.id = m.id := by
      rw [← hfm]
      by_cases h : m.id = c.id <;> simp [h]
    rw [hsame.1, hsame.2]
    exact hns m hm
  · rw [if_neg hex]
    intro n hn
    rcases List.mem_append.mp hn with h | h
    · exact hns n h
    · have hn2 : n = c := by simpa using h
      rw [hn2]
      exact hc

/-- The group filter commutes with an `addNode` replay. -/
theorem filter_group_foldl (g : String) (P : String → Bool) (calls : List GraphNode) :
    ∀ ns, (∀ n ∈ ns, (n.group == g) = P n.id) →
      (∀ c ∈ calls, (c.group == g) = P c.id) →
      (List.foldl addNodeL ns calls).filter (fun n => n.group == g) =
        List.foldl addNodeL (ns.filter (fun n => n.group == g))
          (calls.filter (fun c => c.group == g)) := by
  induction calls with
  | nil => intro ns _ _; rfl
  | cons c cs ih =>
    intro ns hns hcalls
    have hc := hcalls c (List.mem_cons_self c cs)
    rw [List.foldl_cons,
      ih _ (pred_addNodeL ns c g P hns hc)
        (fun x hx => hcalls x (List.mem_cons_of_mem c hx)),
      filter_group_addNodeL ns c g P hns hc]
    by_cases hP : P c.id = true
    · rw [if_pos hP, List.filter_cons]
      have : (c.group == g) = true := hc.trans hP
      rw [this]
      rfl
    · have hPf : P c.id = false := by
        cases hPc : P c.id with
        | true => exact absurd hPc hP
        | false => rfl
      rw [if_neg hP, List.filter_cons]
      have : (c.group == g) = false := hc.trans hPf
      rw [this]
      rfl

theorem nodesOf_filter_group (calls : List GraphNode) (g : String) (P : String → Bool)
    (hcalls : ∀ c ∈ calls, (c.group == g) = P c.id) :
    (nodesOf calls).filter (fun n => n.group == g) =
      nodesOf (calls.filter (fun c => c.group == g)) := by
  unfold nodesOf
  rw [filter_group_foldl g P calls [] (by simp) hcalls]
  rfl

/-- Replaying node calls with pairwise distinct ids keeps every call as-is. -/
theorem foldl_addNodeL_distinct (calls : List GraphNode) :
    ∀ ns, (∀ c ∈ calls, ns.any (fun n => n.id == c.id) = false) →
      calls.Pairwise (fun a b => a.id ≠ b.id) →
      List.foldl addNodeL ns calls = ns ++ calls := by
  induction calls with
  | nil =>
    intro ns _ _
    rw [List.append_nil]
    rfl
  | cons c cs ih =>
    intro ns h1 hp
    have hstep : addNodeL ns c = ns ++ [c] := by
      unfold addNodeL
      rw [h1 c (List.mem_cons_self c cs), if_neg (by decide : ¬(false = true))]
    rw [List.foldl_cons, hstep,
      ih (ns ++ [c]) ?_ (List.Pairwise.sublist (List.sublist_cons_self c cs) hp)]
    · rw [List.append_assoc]
      rfl
    · intro e he
      rw [List.any_append]
      apply Bool.or_eq_false_iff.mpr
      refine ⟨h1 e (List.mem_cons_of_mem c he), ?_⟩
      have hne : c.id ≠ e.id := (List.pairwise_cons.mp hp).1 e he
      simp [hne]

theorem nodesOf_distinct (calls : List GraphNode)
    (h : calls.Pairwise (fun a b => a.id ≠ b.id)) : nodesOf calls = calls := by
  unfold nodesOf
  rw [foldl_addNodeL_distinct calls [] (fun c _ => rfl) h]
  rfl

theorem headChar_docId (doc : ResearchDocument) : headChar (docIdOf doc) = some 'p' :=
  headChar_append "paper:" doc.id 'p' ['a', 'p', 'e', 'r', ':'] rfl

theorem headChar_conceptId (x : String) : headChar ("concept:" ++ x) = some 'c' :=
  headChar_append "concept:" x 'c' ['o', 'n', 'c', 'e', 'p', 't', ':'] rfl

theorem headChar_methodId (x : String) : headChar ("method:" ++ x) = some 'm' :=
  headChar_append "method:" x 'm' ['e', 't', 'h', 'o', 'd', ':'] rfl

/-- Among builder calls, carrying group CONCEPT is equivalent to the
`concept:` id namespace. -/
theorem group_pred_concept (documents : List ResearchDocument) :
    ∀ c ∈ nodeCalls documents,
      (c.group == "CONCEPT") = (headChar c.id == some 'c') := by
  intro c hc
  rcases callShape_groupVal c (callShape_nodeCalls documents c hc) with
    ⟨hg, _, hh⟩ | ⟨hg, _, hh⟩ | ⟨hg, _, hh⟩ | ⟨hg, _, hh⟩ | ⟨hg, _, hh⟩ <;>
    rw [hg, hh] <;> decide

/-- Among builder calls, carrying group METHOD is equivalent to the
`method:` id namespace. -/
theorem group_pred_method (documents : List ResearchDocument) :
    ∀ c ∈ nodeCalls documents,
      (c.group == "METHOD") = (headChar c.id == some 'm') := by
  intro c hc
  rcases callShape_groupVal c (callShape_nodeCalls documents c hc) with
    ⟨hg, _, hh⟩ | ⟨hg, _, hh⟩ | ⟨hg, _, hh⟩ | ⟨hg, _, hh⟩ | ⟨hg, _, hh⟩ <;>
    rw [hg, hh] <;> decide

theorem nodeCalls_single (doc : ResearchDocument) :
    nodeCalls [doc] = nodeCallsOfDoc doc := by
  unfold nodeCalls
  simp

theorem edgeCalls_single (doc : ResearchDocument) :
    edgeCalls [doc] = edgeCallsOfDoc doc := by
  unfold edgeCalls
  simp

/-- The institute block contributes no CONCEPT or METHOD node call. -/
theorem instSegment_filter (doc : ResearchDocument) (g : String)
    (hg : ("INSTITUTE" == g) = false) :
    List.filter (fun c : GraphNode => c.group == g)
      (match doc.institute with
      | none => []
      | some institute => if institute = "" then [] else [instCall institute]) = [] := by
  cases doc.institute with
  | none => rfl
  | some s =>
    have hred : (match some s with
        | none => ([] : List GraphNode)
        | some institute => if institute = "" then [] else [instCall institute]) =
        if s = "" then [] else [instCall s] := rfl
    rw [hred]
    by_cases hs : s = ""
    · rw [if_pos hs]
      rfl
    · rw [if_neg hs]
      apply List.filter_eq_nil_iff.mpr
      intro x hx
      have hxi : x = instCall s := by simpa using hx
      rw [hxi]
      intro hb
      rw [show (instCall s).group = "INSTITUTE" from rfl, hg] at hb
      exact absurd hb (by decide)

/-- The CONCEPT node calls of one document are exactly its first five
concepts' calls, in order. -/
theorem nodeCallsOfDoc_filter_concept (doc : ResearchDocument) :
    (nodeCallsOfDoc doc).filter (fun c => c.group == "CONCEPT") =
      (doc.keyConcepts.take 5).map conceptCall := by
  unfold nodeCallsOfDoc
  rw [List.filter_cons]
  have hpa : ((paperCall doc).group == "CONCEPT") = false := rfl
  rw [hpa, if_neg (by decide : ¬(false = true))]
  rw [List.filter_append, List.filter_append, List.filter_append]
  have hau : (doc.authors.map authorCall).filter (fun c => c.group == "CONCEPT") = [] := by
    apply List.filter_eq_nil_iff.mpr
    intro x hx
    obtain ⟨a, _, rfl⟩ := List.mem_map.mp hx
    first
      | exact rfl
      | exact (by decide : ¬(false = true))
  have hin := instSegment_filter doc "CONCEPT" (by decide)
  have hco : ((doc.keyConcepts.take 5).map conceptCall).filter
      (fun c => c.group == "CONCEPT") = (doc.keyConcepts.take 5).map conceptCall := by
    apply List.filter_eq_self.mpr
    intro x hx
    obtain ⟨a, _, rfl⟩ := List.mem_map.mp hx
    first
      | exact rfl
      | exact (by decide : ¬(false = true))
  have hme : ((doc.methods.take 3).map methodCall).filter
      (fun c => c.group == "CONCEPT") = [] := by
    apply List.filter_eq_nil_iff.mpr
    intro x hx
    obtain ⟨a, _, rfl⟩ := List.mem_map.mp hx
    first
      | exact rfl
      | exact (by decide : ¬(false = true))
  rw [hau, hin, hco, hme]
  simp

/-- The METHOD node calls of one document are exactly its first three
methods' calls, in order. -/
theorem nodeCallsOfDoc_filter_method (doc : ResearchDocument) :
    (nodeCallsOfDoc doc).filter (fun c => c.group == "METHOD") =
      (doc.methods.take 3).map methodCall := by
  unfold nodeCallsOfDoc
  rw [List.filter_cons]
  have hpa : ((paperCall doc).group == "METHOD") = false := rfl
  rw [hpa, if_neg (by decide : ¬(false = true))]
  rw [List.filter_append, List.filter_append, List.filter_append]
  have hau : (doc.authors.map authorCall).filter (fun c => c.group == "METHOD") = [] := by
    apply List.filter_eq_nil_iff.mpr
    intro x hx
    obtain ⟨a, _, rfl⟩ := List.mem_map.mp hx
    first
      | exact rfl
      | exact (by decide : ¬(false = true))
  have hin := instSegment_filter doc "METHOD" (by decide)
  have hco : ((doc.keyConcepts.take 5).map conceptCall).filter
      (fun c => c.group == "METHOD") = [] := by
    apply List.filter_eq_nil_iff.mpr
    intro x hx
    obtain ⟨a, _, rfl⟩ := List.mem_map.mp hx
    first
      | exact rfl
      | exact (by decide : ¬(false = true))
  have hme : ((doc.methods.take 3).map methodCall).filter
      (fun c => c.group == "METHOD") = (doc.methods.take 3).map methodCall := by
    apply List.filter_eq_self.mpr
    intro x hx
    obtain ⟨a, _, rfl⟩ := List.mem_map.mp hx
    first
      | exact rfl
      | exact (by decide : ¬(false = true))
  rw [hau, hin, hco, hme]
  simp

/-- The institute block's edge calls carry neither `discusses` nor
`uses_method`. -/
theorem instSegment_filter_rel (doc : ResearchDocument) (r : String)
    (h1 : ("published_at" == r) = false) (h2 : ("affiliated_with" == r) = false) :
    List.filter (fun e : GraphEdge => e.relation == r)
      (match doc.institute with
      | none => []
      | some institute =>
        if institute = "" then []
        else publishedAtEdge doc institute ::
          doc.authors.map (fun author => affiliatedEdge author institute)) = [] := by
  cases doc.institute with
  | none => rfl
  | some s =>
    have hred : (match some s with
        | none => ([] : List GraphEdge)
        | some institute =>
          if institute = "" then []
          else publishedAtEdge doc institute ::
            doc.authors.map (fun author => affiliatedEdge author institute)) =
        if s = "" then []
        else publishedAtEdge doc s ::
          doc.authors.map (fun author => affiliatedEdge author s) := rfl
    rw [hred]
    by_cases hs : s = ""
    · rw [if_pos hs]
      rfl
    · rw [if_neg hs]
      apply List.filter_eq_nil_iff.mpr
      intro x hx
      rcases List.mem_cons.mp hx with hx2 | hx2
      · rw [hx2]
        intro hb
        rw [show (publishedAtEdge doc s).relation = "published_at" from rfl, h1] at hb
        exact absurd hb (by decide)
      · obtain ⟨a, _, rfl⟩ := List.mem_map.mp hx2
        intro hb
        rw [show (affiliatedEdge a s).relation = "affiliated_with" from rfl, h2] at hb
        exact absurd hb (by decide)

/-- The `discusses` edge calls of one document are exactly its first five
concepts' edges, in order. -/
theorem edgeCallsOfDoc_filter_discusses (doc : ResearchDocument) :
    (edgeCallsOfDoc doc).filter (fun e => e.relation == "discusses") =
      (doc.keyConcepts.take 5).map (discussesEdge doc) := by
  unfold edgeCallsOfDoc
  rw [List.filter_append, List.filter_append, List.filter_append]
  have hwr : (doc.authors.map (writtenByEdge doc)).filter
      (fun e => e.relation == "discusses") = [] := by
    apply List.filter_eq_nil_iff.mpr
    intro x hx
    obtain ⟨a, _, rfl⟩ := List.mem_map.mp hx
    first
      | exact rfl
      | exact (by decide : ¬(false = true))
  have hin := instSegment_filter_rel doc "discusses" (by decide) (by decide)
  have hco : ((doc.keyConcepts.take 5).map (discussesEdge doc)).filter
      (fun e => e.relation == "discusses") =
      (doc.keyConcepts.take 5).map (discussesEdge doc) := by
    apply List.filter_eq_self.mpr
    intro x hx
    obtain ⟨a, _, rfl⟩ := List.mem_map.mp hx
    first
      | exact rfl
      | exact (by decide : ¬(false = true))
  have hme : ((doc.methods.take 3).map (usesMethodEdge doc)).filter
      (fun e => e.relation == "discusses") = [] := by
    apply List.filter_eq_nil_iff.mpr
    intro x hx
    obtain ⟨a, _, rfl⟩ := List.mem_map.mp hx
    first
      | exact rfl
      | exact (by decide : ¬(false = true))
  rw [hwr, hin, hco, hme]
  simp

/-- The `uses_method` edge calls of one document are exactly its first
three methods' edges, in order. -/
theorem edgeCallsOfDoc_filter_uses (doc : ResearchDocument) :
    (edgeCallsOfDoc doc).filter (fun e => e.relation == "uses_method") =
      (doc.methods.take 3).map (usesMethodEdge doc) := by
  unfold edgeCallsOfDoc
  rw [List.filter_append, List.filter_append, List.filter_append]
  have hwr : (doc.authors.map (writtenByEdge doc)).filter
      (fun e => e.relation == "uses_method") = [] := by
    apply List.filter_eq_nil_iff.mpr
    intro x hx
    obtain ⟨a, _, rfl⟩ := List.mem_map.mp hx
    first
      | exact rfl
      | exact (by decide : ¬(false = true))
  have hin := instSegment_filter_rel doc "uses_method" (by decide) (by decide)
  have hco : ((doc.keyConcepts.take 5).map (discussesEdge doc)).filter
      (fun e => e.relation == "uses_method") = [] := by
    apply List.filter_eq_nil_iff.mpr
    intro x hx
    obtain ⟨a, _, rfl⟩ := List.mem_map.mp hx
    first
      | exact rfl
      | exact (by decide : ¬(false = true))
  have hme : ((doc.methods.take 3).map (usesMethodEdge doc)).filter
      (fun e => e.relation == "uses_method") =
      (doc.methods.take 3).map (usesMethodEdge doc) := by
    apply List.filter_eq_self.mpr
    intro x hx
    obtain ⟨a, _, rfl⟩ := List.mem_map.mp hx
    first
      | exact rfl
      | exact (by decide : ¬(false = true))
  rw [hwr, hin, hco, hme]
  simp

end IRDA

namespace IRDA

/-- Permuted lists agree on `any`. -/
theorem listAny_perm {α : Type} {l l' : List α} (h : l.Perm l') (p : α → Bool) :
    l.any p = l'.any p := by
  apply Bool.eq_iff_iff.mpr
  rw [List.any_eq_true, List.any_eq_true]
  constructor
  · rintro ⟨x, hx, hp⟩
    exact ⟨x, h.mem_iff.mp hx, hp⟩
  · rintro ⟨x, hx, hp⟩
    exact ⟨x, h.mem_iff.mpr hx, hp⟩

theorem any_id_of_mem (ns : List GraphNode) (n : GraphNode) (h : n ∈ ns)
    (i : String) (hi : n.id = i) : ns.any (fun n2 => n2.id == i) = true :=
  List.any_eq_true.mpr ⟨n, h, by simp [hi]⟩

theorem paperCall_mem (doc : ResearchDocument) : paperCall doc ∈ nodeCallsOfDoc doc :=
  List.mem_cons_self _ _

theorem authorCall_mem (doc : ResearchDocument) (a : String) (h : a ∈ doc.authors) :
    authorCall a ∈ nodeCallsOfDoc doc := by
  unfold nodeCallsOfDoc
  exact List.mem_cons_of_mem _ (List.mem_append_left _ (List.mem_map_of_mem _ h))

theorem instCall_mem (doc : ResearchDocument) (s : String) (hi : doc.institute = some s)
    (hs : s ≠ "") : instCall s ∈ nodeCallsOfDoc doc := by
  unfold nodeCallsOfDoc
  apply List.mem_cons_of_mem
  apply List.mem_append_right
  apply List.mem_append_left
  rw [hi]
  show instCall s ∈ (if s = "" then [] else [instCall s])
  rw [if_neg hs]
  exact List.mem_cons_self _ _

theorem conceptCall_mem (doc : ResearchDocument) (s : String)
    (h : s ∈ doc.keyConcepts.take 5) : conceptCall s ∈ nodeCallsOfDoc doc := by
  unfold nodeCallsOfDoc
  apply List.mem_cons_of_mem
  apply List.mem_append_right
  apply List.mem_append_right
  exact List.mem_append_left _ (List.mem_map_of_mem _ h)

theorem methodCall_mem (doc : ResearchDocument) (s : String)
    (h : s ∈ doc.methods.take 3) : methodCall s ∈ nodeCallsOfDoc doc := by
  unfold nodeCallsOfDoc
  apply List.mem_cons_of_mem
  apply List.mem_append_right
  apply List.mem_append_right
  exact List.mem_append_right _ (List.mem_map_of_mem _ h)

/-- Both endpoints of every edge call of a document are ids of node calls
of the same document (each edge is added right after its endpoint nodes). -/
theorem edgeCall_endpoints (doc : ResearchDocument) (e : GraphEdge)
    (h : e ∈ edgeCallsOfDoc doc) :
    (nodeCallsOfDoc doc).any (fun n => n.id == e.source) = true ∧
    (nodeCallsOfDoc doc).any (fun n => n.id == e.target) = true := by
  unfold edgeCallsOfDoc at h
  rcases List.mem_append.mp h with h | h
  · rcases List.mem_map.mp h with ⟨a, ha, rfl⟩
    exact ⟨any_id_of_mem _ (paperCall doc) (paperCall_mem doc) _ rfl,
      any_id_of_mem _ (authorCall a) (authorCall_mem doc a ha) _ rfl⟩
  rcases List.mem_append.mp h with h | h
  · cases hi : doc.institute with
    | none =>
      rw [hi] at h
      simp at h
    | some s =>
      rw [hi] at h
      have h' : e ∈ (if s = "" then ([] : List GraphEdge)
          else publishedAtEdge doc s ::
            doc.authors.map (fun author => affiliatedEdge author s)) := h
      by_cases hs : s = ""
      · rw [if_pos hs] at h'
        simp at h'
      · rw [if_neg hs] at h'
        rcases List.mem_cons.mp h' with h2 | h2
        · subst h2
          exact ⟨any_id_of_mem _ (paperCall doc) (paperCall_mem doc) _ rfl,
            any_id_of_mem _ (instCall s) (instCall_mem doc s hi hs) _ rfl⟩
        · rcases List.mem_map.mp h2 with ⟨a, ha, rfl⟩
          exact ⟨any_id_of_mem _ (authorCall a) (authorCall_mem doc a ha) _ rfl,
            any_id_of_mem _ (instCall s) (instCall_mem doc s hi hs) _ rfl⟩
  rcases List.mem_append.mp h with h | h
  · rcases List.mem_map.mp h with ⟨s, hs, rfl⟩
    exact ⟨any_id_of_mem _ (paperCall doc) (paperCall_mem doc) _ rfl,
      any_id_of_mem _ (conceptCall s) (conceptCall_mem doc s hs) _ rfl⟩
  · rcases List.mem_map.mp h with ⟨s, hs, rfl⟩
    exact ⟨any_id_of_mem _ (paperCall doc) (paperCall_mem doc) _ rfl,
      any_id_of_mem _ (methodCall s) (methodCall_mem doc s hs) _ rfl⟩

/-- Lift: the endpoints of any edge call are present among all node calls. -/
theorem edgeCalls_endpoints (documents : List ResearchDocument) (e : GraphEdge)
    (h : e ∈ edgeCalls documents) :
    (nodeCalls documents).any (fun n => n.id == e.source) = true ∧
    (nodeCalls documents).any (fun n => n.id == e.target) = true := by
  unfold edgeCalls at h
  rcases List.mem_flatMap.mp h with ⟨d, hd, hde⟩
  have hends := edgeCall_endpoints d e hde
  constructor
  · apply List.any_eq_true.mpr
    obtain ⟨n, hn, hni⟩ := List.any_eq_true.mp hends.1
    exact ⟨n, List.mem_flatMap.mpr ⟨d, hd, hn⟩, hni⟩
  · apply List.any_eq_true.mpr
    obtain ⟨n, hn, hni⟩ := List.any_eq_true.mp hends.2
    exact ⟨n, List.mem_flatMap.mpr ⟨d, hd, hn⟩, hni⟩

/-- A presence-complete raw record processes exactly like its typed view. -/
theorem processDocRaw_ok (st : BuildState) (doc : RawDocument)
    (ha : doc.authors.isSome = true) (hk : doc.keyConcepts.isSome = true)
    (hm : doc.methods.isSome = true) :
    processDocRaw st doc = .ok (processDoc st (toDocument doc)) := by
  obtain ⟨as, hA⟩ := Option.isSome_iff_exists.mp ha
  obtain ⟨ks, hK⟩ := Option.isSome_iff_exists.mp hk
  obtain ⟨ms, hM⟩ := Option.isSome_iff_exists.mp hm
  unfold processDocRaw
  rw [hA, hK, hM]

/-- The raw fold succeeds on presence-complete inputs with the typed fold's
result. -/
theorem foldlM_raw (documents : List RawDocument) :
    ∀ st, (∀ d ∈ documents,
        d.authors.isSome = true ∧ d.keyConcepts.isSome = true ∧
          d.methods.isSome = true) →
      documents.foldlM processDocRaw st =
        .ok (documents.foldl (fun s d => processDoc s (toDocument d)) st) := by
  induction documents with
  | nil => intro st _; rfl
  | cons d ds ih =>
    intro st hall
    obtain ⟨ha, hk, hm⟩ := hall d (List.mem_cons_self d ds)
    rw [List.foldlM_cons, processDocRaw_ok st d ha hk hm]
    have hb : ∀ (x : BuildState) (f : BuildState → Except String BuildState),
        (Except.ok x >>= f) = f x := fun x f => rfl
    rw [hb, ih _ (fun e he => hall e (List.mem_cons_of_mem d he)), List.foldl_cons]

theorem insertId_any (ids : List String) (x y : String) :
    (insertId ids x).any (fun i => i == y) =
      (ids.any (fun i => i == y) || x == y) := by
  unfold insertId
  by_cases h : ids.any (fun i => i == x) = true
  · rw [if_pos h]
    by_cases hxy : x = y
    · subst hxy
      simp [h]
    · have hf : (x == y) = false := by simp [hxy]
      rw [hf, Bool.or_false]
  · rw [if_neg h, List.any_append]
    simp

theorem highlightStep_any (tid : String) (s : List String) (e : GraphEdge)
    (nid : String) :
    (highlightStep tid s e).any (fun i => i == nid) =
      (s.any (fun i => i == nid) ||
        ((e.source == tid && e.target == nid) ||
         (e.target == tid && e.source == nid))) := by
  unfold highlightStep
  by_cases h1 : (e.source == tid) = true <;> by_cases h2 : (e.target == tid) = true <;>
    simp [h1, h2, insertId_any, Bool.or_assoc]

/-- Membership in the highlight set, generalized over the accumulator. -/
theorem linkedNodeIds_go (tid : String) (edges : List GraphEdge) :
    ∀ (startIds : List String) (nid : String),
      (edges.foldl (highlightStep tid) startIds).any (fun i => i == nid) =
        (startIds.any (fun i => i == nid) ||
          edges.any (fun e => (e.source == tid && e.target == nid) ||
            (e.target == tid && e.source == nid))) := by
  induction edges with
  | nil => intro s nid; simp
  | cons e es ih =>
    intro s nid
    rw [List.foldl_cons, ih, List.any_cons, highlightStep_any, Bool.or_assoc]

/-- The computed highlight set is exactly the declarative 1-hop
neighborhood of the selected node. -/
theorem linkedNodeIds_iff (data : KnowledgeGraphData) (tid nid : String) :
    (linkedNodeIds data.edges tid).any (fun i => i == nid) = true ↔
      Neighborhood data tid nid := by
  unfold linkedNodeIds
  rw [linkedNodeIds_go, Bool.or_eq_true_iff]
  constructor
  · rintro (h | h)
    · left
      have h2 : (tid == nid) = true := by simpa using h
      exact (beq_iff_eq.mp h2).symm
    · right
      obtain ⟨e, he, hmm⟩ := List.any_eq_true.mp h
      rcases Bool.or_eq_true_iff.mp hmm with hh | hh
      · rw [Bool.and_eq_true] at hh
        exact ⟨e, he, Or.inl ⟨beq_iff_eq.mp hh.1, beq_iff_eq.mp hh.2⟩⟩
      · rw [Bool.and_eq_true] at hh
        exact ⟨e, he, Or.inr ⟨beq_iff_eq.mp hh.1, beq_iff_eq.mp hh.2⟩⟩
  · rintro (h | ⟨e, he, hh | hh⟩)
    · left
      simp [h]
    · right
      exact List.any_eq_true.mpr ⟨e, he, by simp [hh.1, hh.2]⟩
    · right
      exact List.any_eq_true.mpr ⟨e, he, by simp [hh.1, hh.2]⟩

/-- Every node of a replayed map originates from some call: same id, group,
label and metadata, and a weight at least the call's base. -/
theorem nodesOf_origin (calls : List GraphNode) (n : GraphNode)
    (h : n ∈ nodesOf calls) :
    ∃ c ∈ calls, n.id = c.id ∧ n.group = c.group ∧ c.val ≤ n.val := by
  have hmem : n ∈ (nodesOf calls).filter (fun x => x.id == n.id) :=
    List.mem_filter.mpr ⟨h, by simp⟩
  rw [nodesOf_filter] at hmem
  cases hf : calls.filter (fun c => c.id == n.id) with
  | nil =>
    rw [hf] at hmem
    simp [mergeCalls] at hmem
  | cons c cs =>
    rw [hf, mergeCalls_nil_cons] at hmem
    have hn : n = { c with val := c.val + cs.length } := by simpa using hmem
    have hcf : c ∈ calls.filter (fun c => c.id == n.id) := by
      rw [hf]
      exact List.mem_cons_self c cs
    refine ⟨c, (List.mem_filter.mp hcf).1, ?_, ?_, ?_⟩
    · rw [hn]
    · rw [hn]
    · rw [hn]
      simp

/-- Every node of a built graph carries its group's base weight or more. -/
theorem build_node_baseWeight (documents : List ResearchDocument) (n : GraphNode)
    (h : n ∈ (buildGlobalGraph documents).nodes) :
    (n.group = "PAPER" ∧ 10 ≤ n.val) ∨ (n.group = "AUTHOR" ∧ 5 ≤ n.val) ∨
    (n.group = "INSTITUTE" ∧ 6 ≤ n.val) ∨ (n.group = "CONCEPT" ∧ 3 ≤ n.val) ∨
    (n.group = "METHOD" ∧ 3 ≤ n.val) := by
  have hn : (buildGlobalGraph documents).nodes = nodesOf (nodeCalls documents) := by
    rw [build_eq]
  rw [hn] at h
  obtain ⟨c, hc, _, hg, hv⟩ := nodesOf_origin (nodeCalls documents) n h
  rcases callShape_groupVal c (callShape_nodeCalls documents c hc) with
    ⟨g1, v1, _⟩ | ⟨g1, v1, _⟩ | ⟨g1, v1, _⟩ | ⟨g1, v1, _⟩ | ⟨g1, v1, _⟩
  · exact Or.inl ⟨hg.trans g1, v1 ▸ hv⟩
  · exact Or.inr (Or.inl ⟨hg.trans g1, v1 ▸ hv⟩)
  · exact Or.inr (Or.inr (Or.inl ⟨hg.trans g1, v1 ▸ hv⟩))
  · exact Or.inr (Or.inr (Or.inr (Or.inl ⟨hg.trans g1, v1 ▸ hv⟩)))
  · exact Or.inr (Or.inr (Or.inr (Or.inr ⟨hg.trans g1, v1 ▸ hv⟩)))

end IRDA

namespace IRDA

/-! Claim theorems. -/

/-- Claim C1, counterexample: in the spec's two-document end-to-end
scenario the built graph has no AUTHOR node of weight 7 (the single AUTHOR
node carries weight 6 = base 5 + one merge increment), so the claimed
"1 AUTHOR node of weight 7" is false on the code. -/
theorem claim_C1_counterexample :
    ¬ ∃ n ∈ (buildGlobalGraph [scenarioDoc1, scenarioDoc2]).nodes,
      n.group = "AUTHOR" ∧ n.val = 7 := by
  decide

/-- Claim C1 (corrected): building the graph from exactly the scenario's
two documents yields exactly 2 PAPER nodes, 1 AUTHOR node of weight 6,
1 INSTITUTE node of weight 7, 1 CONCEPT node of weight 4, and exactly the
edges 2 written_by, 2 published_at, 1 affiliated_with (the per-document
re-add collapsed by edge dedup), and 2 discusses. -/
theorem claim_C1_amended :
    (buildGlobalGraph [scenarioDoc1, scenarioDoc2]).nodes =
      [⟨"paper:1", "Doc1", "PAPER", 10, some ⟨"Doc1", "2024-01-01", "S1", "1"⟩⟩,
       ⟨"author:K. Chen", "K. Chen", "AUTHOR", 6, none⟩,
       ⟨"inst:MIT", "MIT", "INSTITUTE", 7, none⟩,
       ⟨"concept:gnn", "GNN", "CONCEPT", 4, none⟩,
       ⟨"paper:2", "Doc2", "PAPER", 10, some ⟨"Doc2", "2024-01-01", "S2", "2"⟩⟩] ∧
    (buildGlobalGraph [scenarioDoc1, scenarioDoc2]).edges =
      [⟨"paper:1", "author:K. Chen", "written_by"⟩,
       ⟨"paper:1", "inst:MIT", "published_at"⟩,
       ⟨"author:K. Chen", "inst:MIT", "affiliated_with"⟩,
       ⟨"paper:1", "concept:gnn", "discusses"⟩,
       ⟨"paper:2", "author:K. Chen", "written_by"⟩,
       ⟨"paper:2", "inst:MIT", "published_at"⟩,
       ⟨"paper:2", "concept:gnn", "discusses"⟩] ∧
    (buildGlobalGraph [scenarioDoc1, scenarioDoc2]).nodes.countP
      (fun n => n.group == "PAPER") = 2 ∧
    (buildGlobalGraph [scenarioDoc1, scenarioDoc2]).nodes.countP
      (fun n => n.group == "AUTHOR") = 1 ∧
    (buildGlobalGraph [scenarioDoc1, scenarioDoc2]).nodes.countP
      (fun n => n.group == "INSTITUTE") = 1 ∧
    (buildGlobalGraph [scenarioDoc1, scenarioDoc2]).nodes.countP
      (fun n => n.group == "CONCEPT") = 1 ∧
    (buildGlobalGraph [scenarioDoc1, scenarioDoc2]).edges.countP
      (fun e => e.relation == "written_by") = 2 ∧
    (buildGlobalGraph [scenarioDoc1, scenarioDoc2]).edges.countP
      (fun e => e.relation == "published_at") = 2 ∧
    (buildGlobalGraph [scenarioDoc1, scenarioDoc2]).edges.countP
      (fun e => e.relation == "affiliated_with") = 1 ∧
    (buildGlobalGraph [scenarioDoc1, scenarioDoc2]).edges.countP
      (fun e => e.relation == "discusses") = 2 := by
  decide

/-- Claim C2: re-adding an existing node id during a build increments the
node's weight by exactly 1 and never overwrites label, group, or metadata
(the whole map pass only rewrites `val`); and whenever one author name
(after trimming) occurs exactly twice across the documents, the built
graph contains a single AUTHOR node for it of weight 5 + 1 = 6. -/
theorem claim_C2 :
    (∀ (st : BuildState) (c : GraphNode),
      st.nodes.any (fun n => n.id == c.id) = true →
      (addNode st c).nodes.length = st.nodes.length ∧
      (addNode st c).nodes = st.nodes.map (fun n =>
        if n.id == c.id then { n with val := n.val + 1 } else n)) ∧
    (∀ (documents : List ResearchDocument) (name : String),
      authorOccurrences documents name = 2 →
      (buildGlobalGraph documents).nodes.filter
          (fun n => n.id == "author:" ++ name) =
        [⟨"author:" ++ name, name, "AUTHOR", 6, none⟩]) := by
  constructor
  · intro st c h
    unfold addNode addNodeL
    rw [if_pos h]
    exact ⟨List.length_map st.nodes _, rfl⟩
  · intro documents name hocc
    have hn : (buildGlobalGraph documents).nodes = nodesOf (nodeCalls documents) := by
      rw [build_eq]
    rw [hn, nodesOf_filter]
    have hlen : ((nodeCalls documents).filter
        (fun c => c.id == "author:" ++ name)).length = 2 := by
      rw [← List.countP_eq_length_filter, countP_nodeCalls_author, hocc]
    have helts : ∀ c ∈ (nodeCalls documents).filter
        (fun c => c.id == "author:" ++ name),
        c = ⟨"author:" ++ name, name, "AUTHOR", 5, none⟩ := by
      intro c hc
      obtain ⟨hmem, hid⟩ := List.mem_filter.mp hc
      exact author_call_determined documents c name hmem (beq_iff_eq.mp hid)
    have hrep := List.eq_replicate_of_mem helts
    rw [hlen] at hrep
    rw [hrep]
    rfl

/-- Witness for claim C2 at a concrete input: the two shared-author
documents (one spelling needing a trim) give occurrence count 2 and a
single AUTHOR node of weight 6. -/
theorem claim_C2_witness :
    authorOccurrences [sharedAuthorDocA, sharedAuthorDocB] "K. Chen" = 2 ∧
    (buildGlobalGraph [sharedAuthorDocA, sharedAuthorDocB]).nodes.filter
        (fun n => n.id == "author:" ++ "K. Chen") =
      [⟨"author:" ++ "K. Chen", "K. Chen", "AUTHOR", 6, none⟩] :=
  ⟨by decide, claim_C2.2 [sharedAuthorDocA, sharedAuthorDocB] "K. Chen" (by decide)⟩

/-- Claim C3: in every built graph no edge is a self-loop and no two edges
coincide up to endpoint swap and relation; and adding edge (A,B,r) and then
(B,A,r) to a state without such an edge stores exactly the single edge
(A,B,r) (the reversed re-add is dropped by the symmetric dedup). -/
theorem claim_C3 :
    (∀ documents : List ResearchDocument,
      (∀ e ∈ (buildGlobalGraph documents).edges, e.source ≠ e.target) ∧
      (buildGlobalGraph documents).edges.Pairwise (fun a b => ¬ sameUndirected a b)) ∧
    (∀ (st : BuildState) (A B r : String), A ≠ B →
      edgeExists st.edges A B r = false →
      (addEdge (addEdge st ⟨A, B, r⟩) ⟨B, A, r⟩).edges = st.edges ++ [⟨A, B, r⟩]) := by
  constructor
  · intro documents
    have he : (buildGlobalGraph documents).edges = edgesOf (edgeCalls documents) := by
      rw [build_eq]
    rw [he]
    exact goodEdges_edgesOf (edgeCalls documents)
  · intro st A B r hAB hex
    have h1 : (addEdge st ⟨A, B, r⟩).edges = st.edges ++ [⟨A, B, r⟩] := by
      show addEdgeL st.edges ⟨A, B, r⟩ = _
      unfold addEdgeL
      have hc1 : ((GraphEdge.mk A B r).source == (GraphEdge.mk A B r).target) = false := by
        simp [hAB]
      rw [hc1]
      have hc2 : edgeExists st.edges (GraphEdge.mk A B r).source
          (GraphEdge.mk A B r).target (GraphEdge.mk A B r).relation = false := hex
      rw [if_neg (by decide : ¬(false = true)), hc2]
      rw [if_neg (by decide : ¬(false = true))]
    have h2 : (addEdge (addEdge st ⟨A, B, r⟩) ⟨B, A, r⟩).edges =
        (addEdge st ⟨A, B, r⟩).edges := by
      show addEdgeL (addEdge st ⟨A, B, r⟩).edges ⟨B, A, r⟩ = _
      unfold addEdgeL
      have hc1 : ((GraphEdge.mk B A r).source == (GraphEdge.mk B A r).target) = false := by
        simp
        exact fun hc => hAB hc.symm
      rw [hc1]
      have hex2 : edgeExists (addEdge st ⟨A, B, r⟩).edges B A r = true := by
        rw [h1, edgeExists_append]
        apply Bool.or_eq_true_iff.mpr
        right
        simp [edgeExists, symMatch]
      rw [if_neg (by decide : ¬(false = true)), hex2, if_pos rfl]
    rw [h2, h1]

/-- Witness for claim C3's dedup part at a concrete state: starting from
the empty state, adding ("a","b","r") and then ("b","a","r") keeps exactly
the one edge. -/
theorem claim_C3_witness :
    ("a" : String) ≠ "b" ∧
    edgeExists (BuildState.mk [] []).edges "a" "b" "r" = false ∧
    (addEdge (addEdge ⟨[], []⟩ ⟨"a", "b", "r"⟩) ⟨"b", "a", "r"⟩).edges =
      [⟨"a", "b", "r"⟩] :=
  ⟨by decide, by decide, by
    have h := claim_C3.2 ⟨[], []⟩ "a" "b" "r" (by decide) (by decide)
    simpa using h⟩

/-- Claim C4: the builder is a pure function (building twice from the same
input is literally the same term), and for every permutation of the
document list the final node set — compared, as the spec does, by node id
together with its group and weight — and the final edge set are unchanged:
document order affects only weight-increment timing, never final
structure.  (Labels and metadata are first-seen and so outside the
compared structure.) -/
theorem claim_C4 :
    ∀ documents documents' : List ResearchDocument, documents.Perm documents' →
      (∀ i : String,
        ((buildGlobalGraph documents).nodes.filter (fun n => n.id == i)).map
            (fun n => (n.group, n.val)) =
          ((buildGlobalGraph documents').nodes.filter (fun n => n.id == i)).map
            (fun n => (n.group, n.val))) ∧
      (∀ s t r : String,
        edgeExists (buildGlobalGraph documents).edges s t r =
          edgeExists (buildGlobalGraph documents').edges s t r) := by
  intro documents documents' h
  constructor
  · intro i
    have hn1 : (buildGlobalGraph documents).nodes = nodesOf (nodeCalls documents) := by
      rw [build_eq]
    have hn2 : (buildGlobalGraph documents').nodes = nodesOf (nodeCalls documents') := by
      rw [build_eq]
    rw [hn1, hn2, nodesOf_filter, nodesOf_filter]
    have hperm : ((nodeCalls documents).filter (fun c => c.id == i)).Perm
        ((nodeCalls documents').filter (fun c => c.id == i)) :=
      List.Perm.filter _ (h.flatMap_right nodeCallsOfDoc)
    cases hF : (nodeCalls documents).filter (fun c => c.id == i) with
    | nil =>
      rw [hF] at hperm
      rw [(hperm.symm).eq_nil]
    | cons c cs =>
      rw [hF] at hperm
      cases hF' : (nodeCalls documents').filter (fun c => c.id == i) with
      | nil =>
        rw [hF'] at hperm
        have := hperm.length_eq
        simp at this
      | cons c' cs' =>
        rw [hF'] at hperm
        rw [mergeCalls_nil_cons, mergeCalls_nil_cons]
        have hmemc : c ∈ (nodeCalls documents).filter (fun c => c.id == i) := by
          rw [hF]
          exact List.mem_cons_self _ _
        have hmemc' : c' ∈ (nodeCalls documents').filter (fun c => c.id == i) := by
          rw [hF']
          exact List.mem_cons_self _ _
        obtain ⟨hcMem, hcId⟩ := List.mem_filter.mp hmemc
        obtain ⟨hcMem', hcId'⟩ := List.mem_filter.mp hmemc'
        have hid : c.id = c'.id :=
          (beq_iff_eq.mp hcId).trans (beq_iff_eq.mp hcId').symm
        obtain ⟨hg, hv⟩ := id_determines_groupVal c c'
          (callShape_nodeCalls documents c hcMem)
          (callShape_nodeCalls documents' c' hcMem') hid
        have hlen : cs.length = cs'.length := by
          have := hperm.length_eq
          simpa using this
        simp [hg, hv, hlen]
  · intro s t r
    have he1 : (buildGlobalGraph documents).edges = edgesOf (edgeCalls documents) := by
      rw [build_eq]
    have he2 : (buildGlobalGraph documents').edges = edgesOf (edgeCalls documents') := by
      rw [build_eq]
    rw [he1, he2, edgesOf_edgeExists, edgesOf_edgeExists]
    have hperm : (edgeCalls documents).Perm (edgeCalls documents') :=
      h.flatMap_right edgeCallsOfDoc
    have hq : edgeExists (edgeCalls documents) s t r =
        edgeExists (edgeCalls documents') s t r :=
      listAny_perm hperm _
    rw [hq]

/-- Witness for claim C4 at a concrete input: swapping the two scenario
documents leaves the AUTHOR node's (group, weight) view and the
published_at edge query unchanged. -/
theorem claim_C4_witness :
    ([scenarioDoc1, scenarioDoc2] : List ResearchDocument).Perm
        [scenarioDoc2, scenarioDoc1] ∧
    ((buildGlobalGraph [scenarioDoc1, scenarioDoc2]).nodes.filter
        (fun n => n.id == "author:K. Chen")).map (fun n => (n.group, n.val)) =
      ((buildGlobalGraph [scenarioDoc2, scenarioDoc1]).nodes.filter
        (fun n => n.id == "author:K. Chen")).map (fun n => (n.group, n.val)) ∧
    edgeExists (buildGlobalGraph [scenarioDoc1, scenarioDoc2]).edges
        "paper:1" "inst:MIT" "published_at" =
      edgeExists (buildGlobalGraph [scenarioDoc2, scenarioDoc1]).edges
        "paper:1" "inst:MIT" "published_at" :=
  ⟨by decide,
   (claim_C4 [scenarioDoc1, scenarioDoc2] [scenarioDoc2, scenarioDoc1]
     (by decide)).1 "author:K. Chen",
   (claim_C4 [scenarioDoc1, scenarioDoc2] [scenarioDoc2, scenarioDoc1]
     (by decide)).2 "paper:1" "inst:MIT" "published_at"⟩

/-- Claim C6: only the first 5 key concepts and the first 3 methods of a
document contribute CONCEPT/METHOD nodes and discusses/uses_method edges;
the contribution is the deterministic order-preserving truncation (the
filtered node and edge lists are literally the mapped `take`), and with 8
distinct key concepts exactly 5 CONCEPT nodes/edges result, with 5
distinct methods exactly 3 METHOD nodes/edges.  (Distinctness is of the
normalized — lower-cased, trimmed — ids, since duplicate concepts merge.) -/
theorem claim_C6 :
    ∀ doc : ResearchDocument,
      (((doc.keyConcepts.take 5).map
          (fun c => "concept:" ++ jsTrim (jsToLower c))).Nodup →
        (buildGlobalGraph [doc]).nodes.filter (fun n => n.group == "CONCEPT") =
          (doc.keyConcepts.take 5).map conceptCall ∧
        (buildGlobalGraph [doc]).edges.filter (fun e => e.relation == "discusses") =
          (doc.keyConcepts.take 5).map (discussesEdge doc) ∧
        (doc.keyConcepts.length = 8 →
          ((buildGlobalGraph [doc]).nodes.filter
            (fun n => n.group == "CONCEPT")).length = 5 ∧
          ((buildGlobalGraph [doc]).edges.filter
            (fun e => e.relation == "discusses")).length = 5)) ∧
      (((doc.methods.take 3).map
          (fun m => "method:" ++ jsTrim (jsToLower m))).Nodup →
        (buildGlobalGraph [doc]).nodes.filter (fun n => n.group == "METHOD") =
          (doc.methods.take 3).map methodCall ∧
        (buildGlobalGraph [doc]).edges.filter (fun e => e.relation == "uses_method") =
          (doc.methods.take 3).map (usesMethodEdge doc) ∧
        (doc.methods.length = 5 →
          ((buildGlobalGraph [doc]).nodes.filter
            (fun n => n.group == "METHOD")).length = 3 ∧
          ((buildGlobalGraph [doc]).edges.filter
            (fun e => e.relation == "uses_method")).length = 3)) := by
  intro doc
  have hn : (buildGlobalGraph [doc]).nodes = nodesOf (nodeCalls [doc]) := by
    rw [build_eq]
  have he : (buildGlobalGraph [doc]).edges = edgesOf (edgeCalls [doc]) := by
    rw [build_eq]
  constructor
  · intro hNodup
    have hpairs : List.Pairwise
        (fun a b => ("concept:" ++ jsTrim (jsToLower a)) ≠
          ("concept:" ++ jsTrim (jsToLower b))) (doc.keyConcepts.take 5) :=
      List.pairwise_map.mp hNodup
    have h1 : (buildGlobalGraph [doc]).nodes.filter (fun n => n.group == "CONCEPT") =
        (doc.keyConcepts.take 5).map conceptCall := by
      rw [hn, nodesOf_filter_group (nodeCalls [doc]) "CONCEPT"
        (fun i => headChar i == some 'c') (group_pred_concept [doc]),
        nodeCalls_single, nodeCallsOfDoc_filter_concept]
      apply nodesOf_distinct
      rw [List.pairwise_map]
      exact hpairs
    have h2 : (buildGlobalGraph [doc]).edges.filter
        (fun e => e.relation == "discusses") =
        (doc.keyConcepts.take 5).map (discussesEdge doc) := by
      rw [he, edgesOf_filter_rel, edgeCalls_single, edgeCallsOfDoc_filter_discusses]
      apply edgesOf_clean
      · intro e he2
        obtain ⟨x, _, rfl⟩ := List.mem_map.mp he2
        show docIdOf doc ≠ "concept:" ++ jsTrim (jsToLower x)
        apply ne_of_headChar
        rw [headChar_docId, headChar_conceptId]
        decide
      · rw [List.pairwise_map]
        apply List.Pairwise.imp ?_ hpairs
        intro a b hne hsame
        obtain ⟨hor, _⟩ := hsame
        rcases hor with ⟨_, ht⟩ | ⟨hs, _⟩
        · exact hne ht
        · exact (ne_of_headChar (by
            rw [headChar_docId, headChar_conceptId]
            decide) : docIdOf doc ≠ "concept:" ++ jsTrim (jsToLower b)) hs
    refine ⟨h1, h2, ?_⟩
    intro hlen
    constructor
    · rw [h1, List.length_map, List.length_take, hlen]
      decide
    · rw [h2, List.length_map, List.length_take, hlen]
      decide
  · intro hNodup
    have hpairs : List.Pairwise
        (fun a b => ("method:" ++ jsTrim (jsToLower a)) ≠
          ("method:" ++ jsTrim (jsToLower b))) (doc.methods.take 3) :=
      List.pairwise_map.mp hNodup
    have h1 : (buildGlobalGraph [doc]).nodes.filter (fun n => n.group == "METHOD") =
        (doc.methods.take 3).map methodCall := by
      rw [hn, nodesOf_filter_group (nodeCalls [doc]) "METHOD"
        (fun i => headChar i == some 'm') (group_pred_method [doc]),
        nodeCalls_single, nodeCallsOfDoc_filter_method]
      apply nodesOf_distinct
      rw [List.pairwise_map]
      exact hpairs
    have h2 : (buildGlobalGraph [doc]).edges.filter
        (fun e => e.relation == "uses_method") =
        (doc.methods.take 3).map (usesMethodEdge doc) := by
      rw [he, edgesOf_filter_rel, edgeCalls_single, edgeCallsOfDoc_filter_uses]
      apply edgesOf_clean
      · intro e he2
        obtain ⟨x, _, rfl⟩ := List.mem_map.mp he2
        show docIdOf doc ≠ "method:" ++ jsTrim (jsToLower x)
        apply ne_of_headChar
        rw [headChar_docId, headChar_methodId]
        decide
      · rw [List.pairwise_map]
        apply List.Pairwise.imp ?_ hpairs
        intro a b hne hsame
        obtain ⟨hor, _⟩ := hsame
        rcases hor with ⟨_, ht⟩ | ⟨hs, _⟩
        · exact hne ht
        · exact (ne_of_headChar (by
            rw [headChar_docId, headChar_methodId]
            decide) : docIdOf doc ≠ "method:" ++ jsTrim (jsToLower b)) hs
    refine ⟨h1, h2, ?_⟩
    intro hlen
    constructor
    · rw [h1, List.length_map, List.length_take, hlen]
      decide
    · rw [h2, List.length_map, List.length_take, hlen]
      decide

/-- Witness for claim C6 at a concrete document with 8 distinct key
concepts and 5 distinct methods: exactly 5 CONCEPT nodes, 5 discusses
edges, 3 METHOD nodes and 3 uses_method edges result. -/
theorem claim_C6_witness :
    ((truncDoc.keyConcepts.take 5).map
        (fun c => "concept:" ++ jsTrim (jsToLower c))).Nodup ∧
    ((truncDoc.methods.take 3).map
        (fun m => "method:" ++ jsTrim (jsToLower m))).Nodup ∧
    truncDoc.keyConcepts.length = 8 ∧
    truncDoc.methods.length = 5 ∧
    ((buildGlobalGraph [truncDoc]).nodes.filter
      (fun n => n.group == "CONCEPT")).length = 5 ∧
    ((buildGlobalGraph [truncDoc]).edges.filter
      (fun e => e.relation == "discusses")).length = 5 ∧
    ((buildGlobalGraph [truncDoc]).nodes.filter
      (fun n => n.group == "METHOD")).length = 3 ∧
    ((buildGlobalGraph [truncDoc]).edges.filter
      (fun e => e.relation == "uses_method")).length = 3 :=
  ⟨by decide, by decide, rfl, rfl,
    (((claim_C6 truncDoc).1 (by decide)).2.2 rfl).1,
    (((claim_C6 truncDoc).1 (by decide)).2.2 rfl).2,
    (((claim_C6 truncDoc).2 (by decide)).2.2 rfl).1,
    (((claim_C6 truncDoc).2 (by decide)).2.2 rfl).2⟩

/-- Claim C10: in every built graph, each edge's source id and target id
occur among the ids of the returned nodes — the builder's raw output has
no dangling edges. -/
theorem claim_C10 :
    ∀ documents : List ResearchDocument,
      ∀ e ∈ (buildGlobalGraph documents).edges,
        (buildGlobalGraph documents).nodes.any (fun n => n.id == e.source) = true ∧
        (buildGlobalGraph documents).nodes.any (fun n => n.id == e.target) = true := by
  intro documents e he
  have hg := build_eq documents
  rw [hg] at he ⊢
  have hcall : e ∈ edgeCalls documents := mem_edgesOf _ e he
  have hends := edgeCalls_endpoints documents e hcall
  constructor
  · show (nodesOf (nodeCalls documents)).any (fun n => n.id == e.source) = true
    rw [nodesOf_any]
    exact hends.1
  · show (nodesOf (nodeCalls documents)).any (fun n => n.id == e.target) = true
    rw [nodesOf_any]
    exact hends.2

/-- Claim C5, counterexample: the code has no defensive default for a
missing array — a document record whose `authors` array is absent makes
`doc.authors.forEach` throw a TypeError, so `buildGlobalGraph` raises
rather than producing a sparser graph. -/
theorem claim_C5_counterexample :
    buildGlobalGraphRaw [rawBadDoc] =
      .error "TypeError: undefined has no forEach (doc.authors)" := rfl

/-- Claim C5 (amended): `buildGraph` never raises on inputs whose
author/concept/method arrays are present (possibly empty): a null, absent
or empty institute is tolerated by the falsy guard and only sparsifies the
graph, and the result is the typed builder's graph.  A document missing
one of the three arrays instead raises a TypeError — there are no
defensive defaults for missing arrays. -/
theorem claim_C5_amended :
    ∀ documents : List RawDocument,
      (∀ d ∈ documents,
        d.authors.isSome = true ∧ d.keyConcepts.isSome = true ∧
          d.methods.isSome = true) →
      buildGlobalGraphRaw documents =
        .ok (buildGlobalGraph (documents.map toDocument)) := by
  intro documents hall
  unfold buildGlobalGraphRaw buildGlobalGraph
  rw [foldlM_raw documents ⟨[], []⟩ hall, List.foldl_map]
  rfl

/-- Witness for claim C5 at a concrete input: a record with present but
empty arrays and a null institute builds successfully. -/
theorem claim_C5_witness :
    (∀ d ∈ [rawOkDoc],
      d.authors.isSome = true ∧ d.keyConcepts.isSome = true ∧
        d.methods.isSome = true) ∧
    buildGlobalGraphRaw [rawOkDoc] =
      .ok (buildGlobalGraph ([rawOkDoc].map toDocument)) :=
  ⟨by decide, claim_C5_amended [rawOkDoc] (by decide)⟩

/-- Claim C7: the highlight pass computes exactly the 1-hop neighborhood
(the selected node plus every node sharing an edge with it); neighborhood
nodes and labels stay at opacity 1 and edges with both endpoints inside at
the prominent 0.8, everything else is dimmed (nodes/labels 0.1, edges
0.05); clearing the selection restores every node and label to opacity 1
and every edge to its 0.6 render baseline. -/
theorem claim_C7 :
    ∀ (data : KnowledgeGraphData) (tid : String),
      (∀ nid : String,
        ((linkedNodeIds data.edges tid).any (fun i => i == nid) = true ↔
          Neighborhood data tid nid)) ∧
      (∀ n : GraphNode, Neighborhood data tid n.id →
        (handleHighlight data (some tid)).circleOpacity n = 1 ∧
        (handleHighlight data (some tid)).labelOpacity n = 1) ∧
      (∀ n : GraphNode, ¬ Neighborhood data tid n.id →
        (handleHighlight data (some tid)).circleOpacity n = 0.1 ∧
        (handleHighlight data (some tid)).labelOpacity n = 0.1) ∧
      (∀ e : GraphEdge,
        Neighborhood data tid e.source → Neighborhood data tid e.target →
        (handleHighlight data (some tid)).linkOpacity e = 0.8) ∧
      (∀ e : GraphEdge,
        ¬(Neighborhood data tid e.source ∧ Neighborhood data tid e.target) →
        (handleHighlight data (some tid)).linkOpacity e = 0.05) ∧
      (∀ n : GraphNode, (handleHighlight data none).circleOpacity n = 1 ∧
        (handleHighlight data none).labelOpacity n = 1) ∧
      (∀ e : GraphEdge, (handleHighlight data none).linkOpacity e = 0.6) := by
  intro data tid
  refine ⟨linkedNodeIds_iff data tid, ?_, ?_, ?_, ?_, fun n => ⟨rfl, rfl⟩, fun e => rfl⟩
  · intro n h
    have hc : (linkedNodeIds data.edges tid).any (fun i => i == n.id) = true :=
      (linkedNodeIds_iff data tid n.id).mpr h
    constructor
    · show (if (linkedNodeIds data.edges tid).any (fun i => i == n.id)
          then (1 : ℚ) else 0.1) = 1
      rw [if_pos hc]
    · show (if (linkedNodeIds data.edges tid).any (fun i => i == n.id)
          then (1 : ℚ) else 0.1) = 1
      rw [if_pos hc]
  · intro n h
    have hc : ¬((linkedNodeIds data.edges tid).any (fun i => i == n.id) = true) :=
      fun hb => h ((linkedNodeIds_iff data tid n.id).mp hb)
    constructor
    · show (if (linkedNodeIds data.edges tid).any (fun i => i == n.id)
          then (1 : ℚ) else 0.1) = 0.1
      rw [if_neg hc]
    · show (if (linkedNodeIds data.edges tid).any (fun i => i == n.id)
          then (1 : ℚ) else 0.1) = 0.1
      rw [if_neg hc]
  · intro e h1 h2
    have hc1 := (linkedNodeIds_iff data tid e.source).mpr h1
    have hc2 := (linkedNodeIds_iff data tid e.target).mpr h2
    show (if (linkedNodeIds data.edges tid).any (fun i => i == e.source) &&
        (linkedNodeIds data.edges tid).any (fun i => i == e.target)
        then (0.8 : ℚ) else 0.05) = 0.8
    rw [hc1, hc2]
    simp
  · intro e hcon
    have hfalse : ((linkedNodeIds data.edges tid).any (fun i => i == e.source) &&
        (linkedNodeIds data.edges tid).any (fun i => i == e.target)) = false := by
      cases hb : ((linkedNodeIds data.edges tid).any (fun i => i == e.source) &&
          (linkedNodeIds data.edges tid).any (fun i => i == e.target)) with
      | false => rfl
      | true =>
        rw [Bool.and_eq_true] at hb
        exact absurd ⟨(linkedNodeIds_iff data tid e.source).mp hb.1,
          (linkedNodeIds_iff data tid e.target).mp hb.2⟩ hcon
    show (if (linkedNodeIds data.edges tid).any (fun i => i == e.source) &&
        (linkedNodeIds data.edges tid).any (fun i => i == e.target)
        then (0.8 : ℚ) else 0.05) = 0.05
    rw [hfalse, if_neg (by decide : ¬(false = true))]

/-- Witness for claim C7 on the spec's test graph (edges A-B, A-C, D-E,
selecting A): B is in the neighborhood and fully opaque, D is not and is
dimmed, the A-B edge is prominent and the D-E edge is dimmed. -/
theorem claim_C7_witness :
    Neighborhood highlightData "A" "B" ∧
    ¬ Neighborhood highlightData "A" "D" ∧
    (handleHighlight highlightData (some "A")).circleOpacity
      ⟨"B", "B", "AUTHOR", 5, none⟩ = 1 ∧
    (handleHighlight highlightData (some "A")).circleOpacity
      ⟨"D", "D", "CONCEPT", 3, none⟩ = 0.1 ∧
    (handleHighlight highlightData (some "A")).linkOpacity ⟨"A", "B", "r"⟩ = 0.8 ∧
    (handleHighlight highlightData (some "A")).linkOpacity ⟨"D", "E", "r"⟩ = 0.05 ∧
    (handleHighlight highlightData none).circleOpacity
      ⟨"D", "D", "CONCEPT", 3, none⟩ = 1 ∧
    (handleHighlight highlightData none).linkOpacity ⟨"D", "E", "r"⟩ = 0.6 :=
  ⟨by decide, by decide,
    ((claim_C7 highlightData "A").2.1 ⟨"B", "B", "AUTHOR", 5, none⟩ (by decide)).1,
    ((claim_C7 highlightData "A").2.2.1 ⟨"D", "D", "CONCEPT", 3, none⟩ (by decide)).1,
    (claim_C7 highlightData "A").2.2.2.1 ⟨"A", "B", "r"⟩ (by decide) (by decide),
    (claim_C7 highlightData "A").2.2.2.2.1 ⟨"D", "E", "r"⟩ (by decide),
    ((claim_C7 highlightData "A").2.2.2.2.2.1 ⟨"D", "D", "CONCEPT", 3, none⟩).1,
    (claim_C7 highlightData "A").2.2.2.2.2.2 ⟨"D", "E", "r"⟩⟩

/-- Claim C8: the rendered radius is a group-specific base plus the weight
capped at a small (at most 5) increment, the collision radius is that plus
a margin, the radius is monotone and bounded in the weight, and on every
built graph (where weights start at the group base) PAPER nodes are
strictly largest and CONCEPT/METHOD nodes strictly smallest. -/
theorem claim_C8 :
    (∀ (g : String) (v : Nat),
      getRadius g v = radiusBase g + min v (radiusCap g) ∧
      radiusCap g ≤ 5 ∧ collideRadius g v = getRadius g v + 5) ∧
    (∀ (g : String) (v v' : Nat), v ≤ v' → getRadius g v ≤ getRadius g v') ∧
    (∀ (g : String) (v : Nat), getRadius g v ≤ radiusBase g + radiusCap g) ∧
    (∀ documents : List ResearchDocument,
      ∀ n ∈ (buildGlobalGraph documents).nodes,
      ∀ m ∈ (buildGlobalGraph documents).nodes,
        (n.group = "PAPER" → m.group ≠ "PAPER" →
          getRadius m.group m.val < getRadius n.group n.val) ∧
        ((n.group = "CONCEPT" ∨ n.group = "METHOD") →
          (m.group ≠ "CONCEPT" ∧ m.group ≠ "METHOD") →
          getRadius n.group n.val < getRadius m.group m.val)) := by
  refine ⟨?_, ?_, ?_, ?_⟩
  · intro g v
    unfold getRadius radiusBase radiusCap collideRadius
    by_cases h1 : g = "PAPER" <;> by_cases h2 : g = "AUTHOR" <;>
      by_cases h3 : g = "INSTITUTE" <;> simp [h1, h2, h3, getRadius]
  · intro g v v' hv
    unfold getRadius
    by_cases h1 : g = "PAPER" <;> by_cases h2 : g = "AUTHOR" <;>
      by_cases h3 : g = "INSTITUTE" <;> simp [h1, h2, h3] <;> omega
  · intro g v
    unfold getRadius radiusBase radiusCap
    by_cases h1 : g = "PAPER" <;> by_cases h2 : g = "AUTHOR" <;>
      by_cases h3 : g = "INSTITUTE" <;> simp [h1, h2, h3] <;> omega
  · intro documents n hn m hm
    have hbn := build_node_baseWeight documents n hn
    have hbm := build_node_baseWeight documents m hm
    constructor
    · intro hng hmg
      rcases hbn with ⟨hg1, hv1⟩ | ⟨hg1, hv1⟩ | ⟨hg1, hv1⟩ | ⟨hg1, hv1⟩ | ⟨hg1, hv1⟩ <;>
        rcases hbm with ⟨hg2, hv2⟩ | ⟨hg2, hv2⟩ | ⟨hg2, hv2⟩ | ⟨hg2, hv2⟩ | ⟨hg2, hv2⟩ <;>
        simp_all [getRadius] <;> omega
    · intro hng hmg
      rcases hbn with ⟨hg1, hv1⟩ | ⟨hg1, hv1⟩ | ⟨hg1, hv1⟩ | ⟨hg1, hv1⟩ | ⟨hg1, hv1⟩ <;>
        rcases hbm with ⟨hg2, hv2⟩ | ⟨hg2, hv2⟩ | ⟨hg2, hv2⟩ | ⟨hg2, hv2⟩ | ⟨hg2, hv2⟩ <;>
        simp_all [getRadius] <;> omega

/-- Witness for claim C8 at a concrete build (the two scenario documents):
the PAPER node outsizes the AUTHOR node and the CONCEPT node is strictly
smaller than the INSTITUTE node; plus a concrete monotonicity instance. -/
theorem claim_C8_witness :
    (3 : Nat) ≤ 7 ∧
    getRadius "PAPER" 3 ≤ getRadius "PAPER" 7 ∧
    getRadius "AUTHOR" 6 < getRadius "PAPER" 10 ∧
    getRadius "CONCEPT" 4 < getRadius "INSTITUTE" 7 :=
  ⟨by decide,
    claim_C8.2.1 "PAPER" 3 7 (by decide),
    (claim_C8.2.2.2 [scenarioDoc1, scenarioDoc2]
      ⟨"paper:1", "Doc1", "PAPER", 10, some ⟨"Doc1", "2024-01-01", "S1", "1"⟩⟩
      (by decide) ⟨"author:K. Chen", "K. Chen", "AUTHOR", 6, none⟩ (by decide)).1
      rfl (by decide),
    (claim_C8.2.2.2 [scenarioDoc1, scenarioDoc2]
      ⟨"concept:gnn", "GNN", "CONCEPT", 4, none⟩ (by decide)
      ⟨"inst:MIT", "MIT", "INSTITUTE", 7, none⟩ (by decide)).2
      (Or.inl rfl) (by decide)⟩

/-- Claim C9: each drag handler writes only the pin fields of the dragged
node — start pins at the current position, move pins at the pointer, end
clears the pin — and a full drag cycle on an unpinned node returns the
node exactly to its pre-drag field values. -/
theorem claim_C9 :
    ∀ (eventActive : Bool) (st : DragState) (eventX eventY : ℚ),
      ((dragstarted eventActive st).subject =
        { st.subject with fx := some st.subject.x, fy := some st.subject.y }) ∧
      ((dragged eventX eventY st).subject =
        { st.subject with fx := some eventX, fy := some eventY }) ∧
      ((dragended eventActive st).subject =
        { st.subject with fx := none, fy := none }) ∧
      (st.subject.fx = none → st.subject.fy = none →
        ∀ active2 active3 : Bool,
          (dragended active3 (dragged eventX eventY
            (dragstarted active2 st))).subject = st.subject) := by
  intro a st ex ey
  refine ⟨?_, rfl, ?_, ?_⟩
  · cases a <;> rfl
  · cases a <;> rfl
  · intro hfx hfy a2 a3
    have hred : (dragended a3 (dragged ex ey (dragstarted a2 st))).subject =
        { st.subject with fx := none, fy := none } := by
      cases a2 <;> cases a3 <;> rfl
    rw [hred]
    cases hsub : st.subject with
    | mk i l g v x y fx fy =>
      rw [hsub] at hfx hfy
      have hfx2 : fx = none := hfx
      have hfy2 : fy = none := hfy
      rw [hfx2, hfy2]

/-- Witness for claim C9 at a concrete state: a full drag cycle on the
unpinned demo node restores it exactly. -/
theorem claim_C9_witness :
    dragDemoState.subject.fx = none ∧ dragDemoState.subject.fy = none ∧
    (dragended true (dragged 5 6 (dragstarted false dragDemoState))).subject =
      dragDemoState.subject :=
  ⟨rfl, rfl, (claim_C9 false dragDemoState 5 6).2.2.2 rfl rfl false true⟩

/-- Witness for claim C10 at a concrete input: the single written_by edge
of a one-document build has both endpoints among the node ids. -/
theorem claim_C10_witness :
    (⟨"paper:1", "author:K. Chen", "written_by"⟩ : GraphEdge) ∈
        (buildGlobalGraph [sharedAuthorDocA]).edges ∧
    (buildGlobalGraph [sharedAuthorDocA]).nodes.any
        (fun n => n.id == "paper:1") = true ∧
    (buildGlobalGraph [sharedAuthorDocA]).nodes.any
        (fun n => n.id == "author:K. Chen") = true :=
  ⟨by decide,
    (claim_C10 [sharedAuthorDocA] ⟨"paper:1", "author:K. Chen", "written_by"⟩
      (by decide)).1,
    (claim_C10 [sharedAuthorDocA] ⟨"paper:1", "author:K. Chen", "written_by"⟩
      (by decide)).2⟩

end IRDA
